import Mathlib

/-!
Shallow embedding of the evaluation core (`src/compiler/qsc_eval/src/lib.rs`)
and the name resolver (`src/compiler/qsc_frontend/src/resolve.rs`) of the
qsharp repository, together with theorems settling the frozen claims.

Conventions of the embedding:
* Rust `i64` values are represented as unbounded `Int` together with the
  explicit wrapping function `wrap64`; `u8` counters are `Nat` reduced mod 256
  at the operation that the source performs on them.
* `f64` (`Value::Double`) payloads are represented as `Rat`.  The claims that
  were settled about doubles only concern the error structure (which divisor
  raises `DivZero`), never the IEEE result of an operation, so the arithmetic
  on the payload stands in for the IEEE operations without being relied upon.
* Rust `Result<_, Error>` becomes `Except Fail _` where `Fail` distinguishes a
  returned `Error` from a Rust panic (`unreachable!`, `expect`, `unwrap_*` on
  a wrong variant); panics carry a message and are never a `Value` nor an
  `Error`.
* Reference-counted sharing (`Rc`) is invisible at the value level; the
  uniqueness predicate `is_updatable_in_place` is a run-time heap property and
  is treated as a precondition where a claim mentions it.
-/

namespace Qsc

/-- Modelled from the spec: source span, two `u32` offsets
(`qsc_data_structures::span::Span`, missing crate).  Ordered
lexicographically by `(lo, hi)` as the Rust `derive(Ord)` does. -/
structure Span where
  lo : Nat
  hi : Nat
deriving DecidableEq, Repr

/-- A span paired with the package it belongs to (`error::PackageSpan`). -/
structure PackageSpan where
  package : Nat
  span : Span
deriving DecidableEq, Repr

/-- Modelled from the spec: lexicographic order on spans, as derived in Rust
for `Span {lo, hi}` (missing crate). -/
def Span.le (a b : Span) : Prop :=
  a.lo < b.lo ∨ (a.lo = b.lo ∧ a.hi ≤ b.hi)

instance : DecidableRel Span.le := by
  intro a b
  unfold Span.le
  infer_instance

instance : IsTotal Span Span.le where
  total a b := by unfold Span.le; omega

instance : IsTrans Span Span.le where
  trans a b c := by unfold Span.le; omega

instance : IsAntisymm Span Span.le where
  antisymm a b := by
    unfold Span.le
    intro h1 h2
    have : a.lo = b.lo ∧ a.hi = b.hi := by omega
    cases a; cases b; simp_all

/-- `qsc_fir::fir::Mutability`. -/
inductive Mutability where
  | immutable
  | mutable
deriving DecidableEq, Repr

/-- `qsc_data_structures::functors::FunctorApp`: `controlled` is a `u8` in the
source, kept here as a `Nat` that every operation reduces mod `2^8`. -/
structure FunctorApp where
  adjoint : Bool
  controlled : Nat
deriving DecidableEq, Repr

/-- The default (identity) functor application `{adjoint: false, controlled: 0}`. -/
def FunctorApp.default : FunctorApp := ⟨false, 0⟩

/-- `qsc_fir::fir::Functor`. -/
inductive Functor where
  | adj
  | ctl
deriving DecidableEq, Repr

/-- `qsc_fir::fir::StoreItemId`: a package id paired with a local item id. -/
structure StoreItemId where
  package : Nat
  item : Nat
deriving DecidableEq, Repr

/-- `qsc_eval::val::Value` (the value model of §3 of the spec).  The `val.rs`
file is not part of the supplied sources; the variant list is modelled from
the spec §3, and matches every use site in `lib.rs`.  `Double` payloads are
`Rat` (see the module comment), `String` payloads are Lean strings, qubits
are opaque numeric handles. -/
inductive Value where
  | bool (b : Bool)
  | int (i : Int)
  | bigInt (i : Int)
  | double (d : Rat)
  | string (s : String)
  | pauli (p : Nat)
  | result (r : Bool)
  | qubit (q : Nat)
  | range (start : Option Int) (step : Int) (stop : Option Int)
  | array (items : List Value)
  | tuple (items : List Value)
  | global (id : StoreItemId) (functor : FunctorApp)
  | closure (fixedArgs : List Value) (id : StoreItemId) (functor : FunctorApp)
deriving Repr

/-- `Value::unit()`: the canonical empty tuple. -/
def Value.unit : Value := .tuple []

/-- The evaluator error enumeration (`qsc_eval::Error`), with the same
variants and payloads (string payloads for the message-carrying variants,
`PackageSpan` for every span). -/
inductive EvalError where
  | arrayTooLarge (span : PackageSpan)
  | invalidArrayLength (len : Int) (span : PackageSpan)
  | divZero (span : PackageSpan)
  | emptyRange (span : PackageSpan)
  | invalidIndex (index : Int) (span : PackageSpan)
  | intTooLarge (val : Int) (span : PackageSpan)
  | indexOutOfRange (index : Int) (span : PackageSpan)
  | intrinsicFail (name msg : String) (span : PackageSpan)
  | invalidRotationAngle (angle : Rat) (span : PackageSpan)
  | invalidNegativeInt (val : Int) (span : PackageSpan)
  | outputFail (span : PackageSpan)
  | qubitUniqueness (span : PackageSpan)
  | qubitsNotSeparable (span : PackageSpan)
  | rangeStepZero (span : PackageSpan)
  | releasedQubitNotZero (q : Nat) (span : PackageSpan)
  | unboundName (span : PackageSpan)
  | unknownIntrinsic (name : String) (span : PackageSpan)
  | unsupportedIntrinsicType (name : String) (span : PackageSpan)
  | userFail (msg : String) (span : PackageSpan)
deriving DecidableEq, Repr

/-- Outcome channel of embedded evaluator code: a surfaced `Error`, or a Rust
panic (`unreachable!` / `expect` / `unwrap_*` on the wrong variant). -/
inductive Fail where
  | error (e : EvalError)
  | panicked (msg : String)
deriving DecidableEq, Repr

/-- Shorthand for the fallible-computation monad of the embedding. -/
abbrev EvalM (α : Type) : Type := Except Fail α

/-- Raise a proper evaluator error. -/
def raiseError {α : Type} (e : EvalError) : EvalM α := .error (.error e)

/-- Model of a Rust panic. -/
def panicWith {α : Type} (msg : String) : EvalM α := .error (.panicked msg)

/-! ## Machine integers -/

/-- Two's-complement wrap of an unbounded integer into the `i64` range. -/
def wrap64 (z : Int) : Int := (z + 2 ^ 63) % 2 ^ 64 - 2 ^ 63

/-- Smallest `i64`. -/
def i64Min : Int := -(2 ^ 63)

/-- Largest `i64`. -/
def i64Max : Int := 2 ^ 63 - 1

/-- `z` fits in an `i64`. -/
def inI64 (z : Int) : Prop := i64Min ≤ z ∧ z ≤ i64Max

instance (z : Int) : Decidable (inI64 z) := by unfold inI64; infer_instance

theorem wrap64_eq_of_inI64 {z : Int} (h : inI64 z) : wrap64 z = z := by
  unfold inI64 i64Min i64Max at h
  unfold wrap64
  omega

theorem wrap64_inI64 (z : Int) : inI64 (wrap64 z) := by
  unfold inI64 i64Min i64Max wrap64
  constructor <;> omega

/-- `AsIndex for i64` (`lib.rs`): an `i64` converts to a `usize` index iff it
is non-negative (a 64-bit `usize` holds every non-negative `i64`). -/
def asIndex (i : Int) (indexSource : PackageSpan) : EvalM Nat :=
  if 0 ≤ i then .ok i.toNat
  else raiseError (.invalidIndex i indexSource)

/-! ## Value accessors (modelled from the spec)

`Value::unwrap_*` helpers live in the missing `val.rs`; each panics unless the
value has the expected tag, and otherwise returns the payload.  Modelled from
the spec: §3 value model and every `lib.rs` call site. -/

/-- Modelled from the spec: `Value::unwrap_int` (missing `val.rs`). -/
def Value.unwrapInt : Value → EvalM Int
  | .int i => .ok i
  | _ => panicWith "value should be an Int"

/-- Modelled from the spec: `Value::unwrap_big_int` (missing `val.rs`). -/
def Value.unwrapBigInt : Value → EvalM Int
  | .bigInt i => .ok i
  | _ => panicWith "value should be a BigInt"

/-- Modelled from the spec: `Value::unwrap_double` (missing `val.rs`). -/
def Value.unwrapDouble : Value → EvalM Rat
  | .double d => .ok d
  | _ => panicWith "value should be a Double"

/-- Modelled from the spec: `Value::unwrap_bool` (missing `val.rs`). -/
def Value.unwrapBool : Value → EvalM Bool
  | .bool b => .ok b
  | _ => panicWith "value should be a Bool"

/-- Modelled from the spec: `Value::unwrap_array` (missing `val.rs`). -/
def Value.unwrapArray : Value → EvalM (List Value)
  | .array items => .ok items
  | _ => panicWith "value should be an Array"

/-- Modelled from the spec: `Value::unwrap_tuple` (missing `val.rs`). -/
def Value.unwrapTuple : Value → EvalM (List Value)
  | .tuple items => .ok items
  | _ => panicWith "value should be a Tuple"

/-- Modelled from the spec: `Value::type_name` (missing `val.rs`); maps each
variant to its §3 name.  Only carried along for `VariableInfo` fidelity; no
claim depends on it. -/
def Value.typeName : Value → String
  | .bool _ => "Bool"
  | .int _ => "Int"
  | .bigInt _ => "BigInt"
  | .double _ => "Double"
  | .string _ => "String"
  | .pauli _ => "Pauli"
  | .result _ => "Result"
  | .qubit _ => "Qubit"
  | .range _ _ _ => "Range"
  | .array _ => "Array"
  | .tuple _ => "Tuple"
  | .global _ _ => "Global"
  | .closure _ _ _ => "Closure"

/-! ## Binary operators (C3) -/

/-- Truncating division, as Rust `/` on integers (`Int::wrapping_div` is
truncating division followed by the two's-complement wrap). -/
def tdiv (a b : Int) : Int := Int.tdiv a b

/-- Truncating remainder, as Rust `%` on integers. -/
def tmod (a b : Int) : Int := Int.tmod a b

/-- Rat stand-in for `f64 %`: truncated remainder on the payload model. -/
def ratRem (a b : Rat) : Rat := a - b * ((a / b).floor : Rat)

/-- `eval_binop_div` (`lib.rs`): `BigInt`/`Int` check for a zero divisor and
raise `DivZero`; `Int` then uses `wrapping_div`; `Double` divides with no
check. -/
def eval_binop_div (lhs rhs : Value) (rhsSpan : PackageSpan) : EvalM Value :=
  match lhs with
  | .bigInt v => do
      let r ← rhs.unwrapBigInt
      if r = 0 then raiseError (.divZero rhsSpan)
      else .ok (.bigInt (tdiv v r))
  | .int v => do
      let r ← rhs.unwrapInt
      if r = 0 then raiseError (.divZero rhsSpan)
      else .ok (.int (wrap64 (tdiv v r)))
  | .double v => do
      let r ← rhs.unwrapDouble
      .ok (.double (v / r))
  | _ => panicWith "value should support div"

/-- `eval_binop_mod` (`lib.rs`): `BigInt`/`Int` raise `DivZero` on a zero
divisor; `Int` then uses `wrapping_rem`; `Double` also raises `DivZero` when
the divisor equals `0.0`. -/
def eval_binop_mod (lhs rhs : Value) (rhsSpan : PackageSpan) : EvalM Value :=
  match lhs with
  | .bigInt v => do
      let r ← rhs.unwrapBigInt
      if r = 0 then raiseError (.divZero rhsSpan)
      else .ok (.bigInt (tmod v r))
  | .int v => do
      let r ← rhs.unwrapInt
      if r = 0 then raiseError (.divZero rhsSpan)
      else .ok (.int (wrap64 (tmod v r)))
  | .double v => do
      let r ← rhs.unwrapDouble
      if r = 0 then raiseError (.divZero rhsSpan)
      else .ok (.double (ratRem v r))
  | _ => panicWith "value should support mod"

/-! ## Functor application (C4) -/

/-- `update_functor_app` (`lib.rs`): `Adj` toggles the adjoint flag, `Ctl`
increments the `u8` controlled count (wrapping at 2^8). -/
def update_functor_app (functor : Functor) (app : FunctorApp) : FunctorApp :=
  match functor with
  | .adj => ⟨!app.adjoint, app.controlled⟩
  | .ctl => ⟨app.adjoint, (app.controlled + 1) % 256⟩

/-- `Spec` (`lib.rs`). -/
inductive Spec where
  | body
  | adj
  | ctl
  | ctlAdj
deriving DecidableEq, Repr

/-- `spec_from_functor_app` (`lib.rs`). -/
def spec_from_functor_app (functor : FunctorApp) : Spec :=
  match functor.adjoint, functor.controlled with
  | false, 0 => .body
  | true, 0 => .adj
  | false, _ + 1 => .ctl
  | true, _ + 1 => .ctlAdj

/-- `qsc_fir::fir::UnOp` (the subset needed by the claims: functor
application; the arithmetic unary operators are independent of it). -/
inductive UnOp where
  | functor (f : Functor)
  | neg
  | notB
  | notL
  | pos
  | unwrap
deriving DecidableEq, Repr

/-- `State::eval_unop` (`lib.rs`), as a function of the popped value. -/
def eval_unop (op : UnOp) (val : Value) : EvalM Value :=
  match op with
  | .functor f =>
      match val with
      | .closure args id app => .ok (.closure args id (update_functor_app f app))
      | .global id app => .ok (.global id (update_functor_app f app))
      | _ => panicWith "value should be callable"
  | .neg =>
      match val with
      | .bigInt v => .ok (.bigInt (-v))
      | .double v => .ok (.double (-v))
      | .int v => .ok (.int (wrap64 (-v)))
      | _ => panicWith "value should be number"
  | .notB =>
      match val with
      | .int v => .ok (.int (-(v + 1)))
      | .bigInt v => .ok (.bigInt (-(v + 1)))
      | _ => panicWith "value should be Int or BigInt"
  | .notL =>
      match val with
      | .bool b => .ok (.bool (!b))
      | _ => panicWith "value should be bool"
  | .pos =>
      match val with
      | .bigInt _ | .int _ | .double _ => .ok val
      | _ => panicWith "value should be number"
  | .unwrap => .ok val

end Qsc

namespace Qsc

/-! ## Arrays, ranges and indexing (C2, C7, C10) -/

/-- `index_array` (`lib.rs`): convert the `i64` index (negative →
`InvalidIndex`), then look the element up (`IndexOutOfRange` past the end). -/
def index_array (arr : List Value) (index : Int) (span : PackageSpan) :
    EvalM Value := do
  let i ← asIndex index span
  match arr.get? i with
  | some v => .ok v
  | none => raiseError (.indexOutOfRange index span)

/-- The `Range` iterator of `lib.rs` (`struct Range { step, end, curr }`).
The `end` field is called `stop` because `end` is a Lean keyword. -/
structure Range where
  step : Int
  stop : Int
  curr : Int
deriving DecidableEq, Repr

/-- `Range::new`. -/
def Range.new (start step stop : Int) : Range := ⟨step, stop, start⟩

/-- `Iterator::next for Range` (`lib.rs`): remembers `curr`, advances it by
`step` (an `i64` addition, hence the explicit wrap), and yields the remembered
value while it has not passed `end` in the direction of travel. -/
def Range.next (r : Range) : Option Int × Range :=
  let curr := r.curr
  let r' : Range := { r with curr := wrap64 (curr + r.step) }
  if (r.step > 0 ∧ curr ≤ r.stop) ∨ (r.step < 0 ∧ curr ≥ r.stop) then
    (some curr, r')
  else
    (none, r')

/-- Did the `curr += step` advance overflow the `i64`?  (Observational
instrumentation only; `Range::next` itself wraps.) -/
def Range.advanceOverflows (r : Range) : Bool := !(decide (inI64 (r.curr + r.step)))

/-- `make_range` (`lib.rs`): zero step → `RangeStepZero`; array length must
fit an `i64` (→ `ArrayTooLarge`); missing endpoints default to the bounds of
the array in the direction of travel. -/
def make_range (arr : List Value) (start : Option Int) (step : Int)
    (stop : Option Int) (span : PackageSpan) : EvalM Range :=
  if step = 0 then raiseError (.rangeStepZero span)
  else do
    let len : Int ←
      if (arr.length : Int) ≤ i64Max then .ok (arr.length : Int)
      else raiseError (.arrayTooLarge span)
    let se : Int × Int :=
      if step > 0 then (start.getD 0, stop.getD (len - 1))
      else (start.getD (len - 1), stop.getD 0)
    .ok (Range.new se.1 step se.2)

/-- Iteration core of `slice_array` (`lib.rs`): `for i in range { slice.push(index_array(arr, i, span)?) }`.
Iteration is fuelled (`none` = fuel ran out; the totality theorem shows the
fuel passed by `slice_array` always suffices).  The `Bool` accumulates
whether any `curr += step` advance overflowed. -/
def slice_array_go (arr : List Value) (span : PackageSpan) :
    Nat → Range → Bool → Option (EvalM (List Value)) × Bool
  | 0, _, ov => (none, ov)
  | fuel + 1, r, ov =>
    let ov' := ov || r.advanceOverflows
    match r.next with
    | (none, _) => (some (.ok []), ov')
    | (some idx, r') =>
      match index_array arr idx span with
      | .error e => (some (.error e), ov')
      | .ok v =>
        match slice_array_go arr span fuel r' ov' with
        | (none, o) => (none, o)
        | (some (.error e), o) => (some (.error e), o)
        | (some (.ok rest), o) => (some (.ok (v :: rest)), o)

/-- `slice_array` (`lib.rs`): build the range, then iterate it, indexing the
array at every yielded position. -/
def slice_array (arr : List Value) (start : Option Int) (step : Int)
    (stop : Option Int) (span : PackageSpan) :
    Option (EvalM Value) × Bool :=
  match make_range arr start step stop span with
  | .error e => (some (.error e), false)
  | .ok r =>
    match slice_array_go arr span (arr.length + 2) r false with
    | (none, o) => (none, o)
    | (some (.error e), o) => (some (.error e), o)
    | (some (.ok l), o) => (some (.ok (.array l)), o)

/-- `State::eval_update_index_single` (`lib.rs`): negative index →
`InvalidNegativeInt`; then a bounds-checked copy-and-set, `IndexOutOfRange`
past the end.  Returns the new array (the source pushes `Value::Array`). -/
def eval_update_index_single (values : List Value) (index : Int)
    (update : Value) (span : PackageSpan) : EvalM (List Value) :=
  if index < 0 then raiseError (.invalidNegativeInt index span)
  else do
    let i ← asIndex index span
    match values.get? i with
    | some _ => .ok (values.set i update)
    | none => raiseError (.indexOutOfRange index span)

/-- Loop body of `State::eval_update_index_range` (`lib.rs`):
`for (idx, update) in range.into_iter().zip(update.iter())`, where each
position is converted (`InvalidIndex` for a negative) and bounds-checked
(`IndexOutOfRange`).  Structural recursion on the update list mirrors the
`zip`: the iteration stops at the shorter of range and updates. -/
def eval_update_index_range_go (span : PackageSpan) :
    List Value → Range → List Value → EvalM (List Value)
  | values, _, [] => .ok values
  | values, r, u :: rest =>
    match r.next with
    | (none, _) => .ok values
    | (some idx, r') => do
      let i ← asIndex idx span
      match values.get? i with
      | some _ => eval_update_index_range_go span (values.set i u) r' rest
      | none => raiseError (.indexOutOfRange idx span)

/-- `State::eval_update_index_range` (`lib.rs`). -/
def eval_update_index_range (values : List Value) (start : Option Int)
    (step : Int) (stop : Option Int) (update : Value) (span : PackageSpan) :
    EvalM (List Value) := do
  let range ← make_range values start step stop span
  let u ← update.unwrapArray
  eval_update_index_range_go span values range u

/-- `State::eval_update_index` (`lib.rs`): dispatch on the index value. -/
def eval_update_index (values : List Value) (index : Value) (update : Value)
    (span : PackageSpan) : EvalM (List Value) :=
  match index with
  | .int i => eval_update_index_single values i update span
  | .range start step stop =>
    eval_update_index_range values start step stop update span
  | _ => panicWith "array should only be indexed by Int or Range"

/-! ## Environment (C2, C8, C9) -/

/-- `Variable` (`lib.rs`). -/
structure Variable where
  name : String
  value : Value
  mutability : Mutability
  span : Span
deriving Repr

/-- `Variable::is_mutable`. -/
def Variable.is_mutable (v : Variable) : Bool := v.mutability = Mutability.mutable

/-- `VariableInfo` (`lib.rs`). -/
structure VariableInfo where
  value : Value
  name : String
  type_name : String
  mutability : Mutability
  span : Span
deriving Repr

/-- `Scope` (`lib.rs`): bindings are an `IndexMap<LocalVarId, Variable>`,
modelled as an association list kept in ascending key order (an `IndexMap`
iterates in ascending id order).  `frame_id` is the call-stack depth at the
moment the scope was pushed. -/
structure EScope where
  bindings : List (Nat × Variable) := []
  frame_id : Nat := 0
deriving Repr

/-- Insert into an ascending-key association list, replacing an existing
binding for the same id (`IndexMap::insert`). -/
def insertBinding : List (Nat × Variable) → Nat → Variable →
    List (Nat × Variable)
  | [], id, v => [(id, v)]
  | (k, w) :: rest, id, v =>
    if id < k then (id, v) :: (k, w) :: rest
    else if id = k then (id, v) :: rest
    else (k, w) :: insertBinding rest id v

/-- `IndexMap::get` on the association list. -/
def lookupBinding : List (Nat × Variable) → Nat → Option Variable
  | [], _ => none
  | (k, w) :: rest, id => if id = k then some w else lookupBinding rest id

/-- `Env` (`lib.rs`): a stack of scopes, the innermost scope last (Rust
pushes and pops at the end of the `Vec`). -/
abbrev Env : Type := List EScope

/-- `Env::get`: first hit scanning innermost → outermost. -/
def Env.get : Env → Nat → Option Variable
  | [], _ => none
  | s :: rest, id => (Env.get rest id).orElse fun _ => lookupBinding s.bindings id

/-- Apply `f` to the variable that `Env::get_mut` would find (the innermost
scope that binds `id`); `none` when no scope binds `id`. -/
def Env.updateVar : Env → Nat → (Variable → Variable) → Option Env
  | [], _, _ => none
  | s :: rest, id, f =>
    match Env.updateVar rest id f with
    | some rest' => some (s :: rest')
    | none =>
      if (lookupBinding s.bindings id).isSome then
        some ({ s with bindings := (s.bindings.map fun kv =>
          if kv.1 = id then (kv.1, f kv.2) else kv) } :: rest)
      else none

/-- `Env::get_variables_in_frame` (`lib.rs`): filter the scopes by
`frame_id` (in the stored `Vec` order), map every scope's bindings to
`VariableInfo`, and flatten. -/
def get_variables_in_frame (env : Env) (frame_id : Nat) : List VariableInfo :=
  let candidate_scopes := env.filter fun scope => scope.frame_id = frame_id
  let variables_by_scope := candidate_scopes.map fun scope =>
    scope.bindings.map fun kv =>
      { name := kv.2.name
        type_name := kv.2.value.typeName
        value := kv.2.value
        mutability := kv.2.mutability
        span := kv.2.span : VariableInfo }
  variables_by_scope.flatten

end Qsc

namespace Qsc

/-! ## Patterns and binding (C9) -/

/-- `qsc_fir::fir::PatKind`, with the pattern tree inlined (the source
indirects through a `PatId` store; the store lookup is inessential to the
semantics). -/
inductive Pat where
  | bind (id : Nat) (name : String) (span : Span)
  | discard
  | tuple (pats : List Pat)
deriving Repr

/-- Insert a variable into the innermost scope
(`env.0.last_mut().expect(..)` + `IndexMap::insert`); `none` models the
panic on an empty environment. -/
def Env.bindLast : Env → Nat → Variable → Option Env
  | [], _, _ => none
  | [s], id, v => some [{ s with bindings := insertBinding s.bindings id v }]
  | s :: s' :: rest, id, v => (Env.bindLast (s' :: rest) id v).map (s :: ·)

mutual

/-- `State::bind_value` (`lib.rs`): `Bind` inserts into the innermost scope,
`Discard` binds nothing, `Tuple` zips the sub-patterns with the tuple's
values (the `zip` stops at the shorter side).  The source returns `()` and
can only panic, hence `Option Env` with `none` modelling the panic
(`unwrap_tuple` on a non-tuple, or an empty environment). -/
def bind_value (env : Env) (pat : Pat) (val : Value) (mutability : Mutability) :
    Option Env :=
  match pat with
  | .bind id name sp => Env.bindLast env id ⟨name, val, mutability, sp⟩
  | .discard => some env
  | .tuple pats =>
    match val with
    | .tuple vals => bind_value_tuple env pats vals mutability
    | _ => none

/-- The `for (pat, val) in tup.iter().zip(val_tup.iter())` loop of
`bind_value`. -/
def bind_value_tuple (env : Env) (pats : List Pat) (vals : List Value)
    (mutability : Mutability) : Option Env :=
  match pats, vals with
  | [], _ => some env
  | _ :: _, [] => some env
  | p :: ps, v :: vs =>
    match bind_value env p v mutability with
    | some env' => bind_value_tuple env' ps vs mutability
    | none => none

end

/-- The assignable expression forms accepted by `State::update_binding`
(`ExprKind::Hole`, `ExprKind::Var(Res::Local, _)`, `ExprKind::Tuple`); every
other expression kind hits the `unreachable!` arm and is collapsed into
`other` here. -/
inductive AssignLhs where
  | hole
  | var (id : Nat) (span : Span)
  | tuple (es : List AssignLhs)
  | other
deriving Repr

mutual

/-- `State::update_binding` (`lib.rs`): holes are dropped, a local variable
is reassigned when mutable (`UnboundName` when the environment does not bind
it, panic when it is immutable), tuples zip with a tuple value (the `zip`
stops at the shorter side), anything else panics. -/
def update_binding (env : Env) (lhs : AssignLhs) (rhs : Value) (pkg : Nat) :
    EvalM Env :=
  match lhs with
  | .hole => .ok env
  | .var id sp =>
    match Env.get env id with
    | some var =>
      if var.is_mutable then
        match Env.updateVar env id (fun v => { v with value := rhs }) with
        | some env' => .ok env'
        | none => panicWith "variable found by get must be updatable"
      else panicWith "update of mutable variable should be disallowed by compiler"
    | none => raiseError (.unboundName ⟨pkg, sp⟩)
  | .tuple es =>
    match rhs with
    | .tuple vs => update_binding_tuple env es vs pkg
    | _ => panicWith "unassignable pattern should be disallowed by compiler"
  | .other => panicWith "unassignable pattern should be disallowed by compiler"

/-- The `for (expr, val) in var_tup.iter().zip(tup.iter())` loop of
`update_binding`. -/
def update_binding_tuple (env : Env) (es : List AssignLhs) (vs : List Value)
    (pkg : Nat) : EvalM Env :=
  match es, vs with
  | [], _ => .ok env
  | _ :: _, [] => .ok env
  | e :: es', v :: vs' =>
    match update_binding env e v pkg with
    | .ok env' => update_binding_tuple env' es' vs' pkg
    | .error f => .error f

end

/-! ## In-place index updates (C2) -/

/-- Modelled from the spec: `Value::update_array` (missing `val.rs`), used by
the in-place paths — replace position `i` of the array in place, reporting
the index back on a bounds failure (the caller converts it to
`IndexOutOfRange`); non-arrays cannot occur on the in-place path. -/
inductive UpdateArrayResult where
  | ok (v : Value)
  | outOfRange (i : Nat)
  | notArray
deriving Repr

/-- Modelled from the spec: `Value::update_array` (missing `val.rs`). -/
def Value.update_array (v : Value) (i : Nat) (rhs : Value) : UpdateArrayResult :=
  match v with
  | .array items =>
    if i < items.length then .ok (.array (items.set i rhs)) else .outOfRange i
  | _ => .notArray

/-- `State::update_array_index_single` (`lib.rs`): resolve the mutable local
and mutate its array at the (already converted) position, `IndexOutOfRange`
past the end. -/
def update_array_index_single (env : Env) (lhs : AssignLhs)
    (span : PackageSpan) (index : Nat) (rhs : Value) (pkg : Nat) : EvalM Env :=
  match lhs with
  | .var id sp =>
    match Env.get env id with
    | some var =>
      if var.is_mutable then
        match var.value.update_array index rhs with
        | .ok newVal =>
          match Env.updateVar env id (fun v => { v with value := newVal }) with
          | some env' => .ok env'
          | none => panicWith "variable found by get must be updatable"
        | .outOfRange j => raiseError (.indexOutOfRange (j : Int) span)
        | .notArray => panicWith "variable should be an array"
      else panicWith "update of immutable variable should be disallowed by compiler"
    | none => raiseError (.unboundName ⟨pkg, sp⟩)
  | _ => panicWith "unassignable array update pattern should be disallowed by compiler"

/-- Loop of `State::update_array_index_range` (`lib.rs`):
`for (idx, rhs) in range.into_iter().zip(rhs.iter())`, with the explicit
negative-index check (`InvalidNegativeInt`) before the conversion, then the
in-place `update_array` (`IndexOutOfRange` on a bounds failure).  The
environment is re-read each iteration; the source instead holds one mutable
borrow for the whole loop, which is observationally the same here because the
variable stays bound and mutable throughout. -/
def update_array_index_range_go (span : PackageSpan) (id : Nat) :
    Env → Range → List Value → EvalM Env
  | env, _, [] => .ok env
  | env, r, u :: rest =>
    match r.next with
    | (none, _) => .ok env
    | (some idx, r') =>
      if idx < 0 then raiseError (.invalidNegativeInt idx span)
      else do
        let i ← asIndex idx span
        match Env.get env id with
        | some var =>
          match var.value.update_array i u with
          | .ok newVal =>
            match Env.updateVar env id (fun v => { v with value := newVal }) with
            | some env' => update_array_index_range_go span id env' r' rest
            | none => panicWith "variable found by get must be updatable"
          | .outOfRange j => raiseError (.indexOutOfRange (j : Int) span)
          | .notArray => panicWith "variable should be an array"
        | none => panicWith "variable should stay bound during the loop"

/-- `State::update_array_index_range` (`lib.rs`). -/
def update_array_index_range (env : Env) (lhs : AssignLhs)
    (range_span : PackageSpan) (rangeVal : Value) (update : Value)
    (pkg : Nat) : EvalM Env :=
  match lhs with
  | .var id sp =>
    match Env.get env id with
    | some var =>
      if var.is_mutable then do
        let rhs ← update.unwrapArray
        let arr ← match var.value with
          | .array items => .ok items
          | _ => panicWith "variable should be an array"
        let sse ← match rangeVal with
          | .range start step stop => .ok (start, step, stop)
          | _ => panicWith "range should be a Value::Range"
        let range ← make_range arr sse.1 sse.2.1 sse.2.2 range_span
        update_array_index_range_go range_span id env range rhs
      else panicWith "update of mutable variable should be disallowed by compiler"
    | none => raiseError (.unboundName ⟨pkg, sp⟩)
  | _ => panicWith "unassignable array update pattern should be disallowed by compiler"

/-- `State::eval_update_index_in_place` (`lib.rs`): dispatch on the index
value; a negative `Int` index raises `InvalidNegativeInt` before conversion. -/
def eval_update_index_in_place (env : Env) (lhs : AssignLhs)
    (index update : Value) (span : PackageSpan) (pkg : Nat) : EvalM Env :=
  match index with
  | .int i =>
    if i < 0 then raiseError (.invalidNegativeInt i span)
    else do
      let i' ← asIndex i span
      update_array_index_single env lhs span i' update pkg
  | .range _ _ _ => update_array_index_range env lhs span index update pkg
  | _ => panicWith "array should only be indexed by Int or Range"

/-- The full copying `AssignIndex` path of `cont_assign_index` (`lib.rs`): the
local's value is read (`resolve_binding` on `Res::Local`), the copying
`eval_update_index` runs, and the result is assigned back through
`update_binding` (`Action::Assign`). -/
def assign_index_copy (env : Env) (id : Nat) (sp : Span)
    (index update : Value) (span : PackageSpan) (pkg : Nat) : EvalM Env := do
  let lhsVal ← match Env.get env id with
    | some var => .ok var.value
    | none => raiseError (.unboundName ⟨pkg, sp⟩)
  let values ← lhsVal.unwrapArray
  let newArr ← eval_update_index values index update span
  update_binding env (.var id sp) (.array newArr) pkg

/-- The in-place `AssignIndex` path of `cont_assign_index` (`lib.rs`), chosen
when `is_updatable_in_place` holds for the local. -/
def assign_index_in_place (env : Env) (id : Nat) (sp : Span)
    (index update : Value) (span : PackageSpan) (pkg : Nat) : EvalM Env :=
  eval_update_index_in_place env (.var id sp) index update span pkg

end Qsc

namespace Qsc

/-! ## Arithmetic helper lemmas -/

@[simp] theorem EvalM.ok_bind {α β : Type} (a : α) (f : α → EvalM β) :
    (Except.ok a >>= f) = f a := rfl

@[simp] theorem EvalM.error_bind {α β : Type} (e : Fail) (f : α → EvalM β) :
    ((Except.error e : EvalM α) >>= f) = Except.error e := rfl

theorem tmod_neg_left (a b : Int) : Int.tmod (-a) b = -Int.tmod a b := by
  rw [Int.tmod_def, Int.tmod_def, Int.neg_tdiv]
  ring

theorem tmod_bounds {a b : Int} (hb : 0 < b) :
    -b < Int.tmod a b ∧ Int.tmod a b < b := by
  constructor
  · rcases le_or_lt 0 a with hx | hx
    · have := Int.tmod_nonneg b hx
      omega
    · have h1 : Int.tmod a b = -Int.tmod (-a) b := by
        rw [← tmod_neg_left, neg_neg]
      have h2 := Int.tmod_lt_of_pos (-a) hb
      omega
  · exact Int.tmod_lt_of_pos a hb

theorem tdiv_inI64 {a b : Int} (ha : inI64 a) (hb : inI64 b) (hb0 : b ≠ 0)
    (hexc : ¬(a = i64Min ∧ b = -1)) : inI64 (tdiv a b) := by
  unfold tdiv
  rcases eq_or_ne b 1 with h1 | h1
  · subst h1; simpa [Int.tdiv_one] using ha
  rcases eq_or_ne b (-1) with hm1 | hm1
  · subst hm1
    have hne : a ≠ i64Min := fun h => hexc ⟨h, rfl⟩
    have : a.tdiv (-1) = -a := by
      have := Int.tdiv_neg a 1
      simpa [Int.tdiv_one] using this
    rw [this]
    unfold inI64 i64Min i64Max at *
    omega
  · have h2 : 2 ≤ b.natAbs := by
      unfold inI64 i64Min i64Max at hb
      omega
    have hIdent : (a.tdiv b).natAbs = a.natAbs / b.natAbs := Int.natAbs_tdiv a b
    have hA : a.natAbs ≤ 2 ^ 63 := by
      unfold inI64 i64Min i64Max at ha
      omega
    have hle : a.natAbs / b.natAbs ≤ a.natAbs / 2 :=
      Nat.div_le_div_left h2 (by omega)
    have hle2 : a.natAbs / 2 ≤ 2 ^ 63 / 2 := Nat.div_le_div_right hA
    unfold inI64 i64Min i64Max
    omega

theorem tmod_inI64 {a b : Int} (hb : inI64 b) (hb0 : b ≠ 0) : inI64 (tmod a b) := by
  unfold tmod
  unfold inI64 i64Min i64Max at hb ⊢
  rcases lt_or_gt_of_ne hb0 with hneg | hpos
  · have heq : Int.tmod a b = Int.tmod a (-b) := by
      rw [Int.tmod_neg]
    have := tmod_bounds (a := a) (b := -b) (by omega)
    omega
  · have := tmod_bounds (a := a) (b := b) hpos
    omega

/-! ## C3: division and modulo error contracts -/

/-- C3 (counterexample): the claim asserts that modulo on `Double` operands
never raises `DivZero` for a zero divisor, but `eval_binop_mod` on
`Double % 0.0` returns exactly `DivZero`. -/
theorem claim_c3_counterexample :
    eval_binop_mod (.double 1) (.double 0) ⟨0, ⟨3, 4⟩⟩ =
      raiseError (.divZero ⟨0, ⟨3, 4⟩⟩) := by
  rfl

/-- C3 (amended): `Int`/`BigInt` division and modulo fail with `DivZero`
exactly when the divisor is zero and otherwise wrap (`Int`, two's complement,
including `i64::MIN / -1 = i64::MIN`) or are exact (`BigInt`); `Double`
division never raises `DivZero`, while `Double` modulo raises `DivZero`
exactly when the divisor equals `0.0`. -/
theorem claim_c3_amended :
    (∀ (a b : Int) (sp : PackageSpan),
      (eval_binop_div (.int a) (.int b) sp = raiseError (.divZero sp) ↔ b = 0) ∧
      (eval_binop_mod (.int a) (.int b) sp = raiseError (.divZero sp) ↔ b = 0) ∧
      (eval_binop_div (.bigInt a) (.bigInt b) sp = raiseError (.divZero sp) ↔ b = 0) ∧
      (eval_binop_mod (.bigInt a) (.bigInt b) sp = raiseError (.divZero sp) ↔ b = 0)) ∧
    (∀ (a b : Int) (sp : PackageSpan), b ≠ 0 →
      eval_binop_div (.bigInt a) (.bigInt b) sp = .ok (.bigInt (tdiv a b)) ∧
      eval_binop_mod (.bigInt a) (.bigInt b) sp = .ok (.bigInt (tmod a b))) ∧
    (∀ (a b : Int) (sp : PackageSpan), b ≠ 0 → inI64 a → inI64 b →
      ¬(a = i64Min ∧ b = -1) →
      eval_binop_div (.int a) (.int b) sp = .ok (.int (tdiv a b)) ∧
      eval_binop_mod (.int a) (.int b) sp = .ok (.int (tmod a b))) ∧
    (∀ (sp : PackageSpan),
      eval_binop_div (.int i64Min) (.int (-1)) sp = .ok (.int i64Min)) ∧
    (∀ (x y : Rat) (sp : PackageSpan),
      (∃ v, eval_binop_div (.double x) (.double y) sp = .ok v) ∧
      (eval_binop_mod (.double x) (.double y) sp = raiseError (.divZero sp) ↔
        y = 0)) := by
  refine ⟨?_, ?_, ?_, ?_, ?_⟩
  · intro a b sp
    by_cases hb : b = 0 <;>
      simp [eval_binop_div, eval_binop_mod, Value.unwrapInt, Value.unwrapBigInt,
        raiseError, hb]
  · intro a b sp hb
    simp [eval_binop_div, eval_binop_mod, Value.unwrapBigInt, hb]
  · intro a b sp hb ha hbi hexc
    have h1 := wrap64_eq_of_inI64 (tdiv_inI64 ha hbi hb hexc)
    have h2 := wrap64_eq_of_inI64 (tmod_inI64 (a := a) hbi hb)
    simp [eval_binop_div, eval_binop_mod, Value.unwrapInt, hb, h1, h2]
  · intro sp
    rfl
  · intro x y sp
    constructor
    · exact ⟨.double (x / y), by simp [eval_binop_div, Value.unwrapDouble]⟩
    · by_cases hy : y = 0 <;>
        simp [eval_binop_mod, Value.unwrapDouble, raiseError, hy]

/-- C3 (witness): the amended theorem applied at concrete operands. -/
theorem claim_c3_amended_witness :
    eval_binop_div (.int 7) (.int 2) ⟨0, ⟨0, 1⟩⟩ = .ok (.int 3) ∧
    eval_binop_mod (.bigInt 7) (.bigInt 2) ⟨0, ⟨0, 1⟩⟩ = .ok (.bigInt 1) := by
  constructor
  · have h := (claim_c3_amended.2.2.1 7 2 ⟨0, ⟨0, 1⟩⟩ (by decide) (by decide)
      (by decide) (by decide)).1
    exact h.trans (by rfl)
  · have h := (claim_c3_amended.2.1 7 2 ⟨0, ⟨0, 1⟩⟩ (by decide)).2
    exact h.trans (by rfl)

/-! ## C4: functor composition -/

/-- `n`-fold application of the `Ctl` functor through `update_functor_app`. -/
def ctl_applications : Nat → FunctorApp → FunctorApp
  | 0, app => app
  | n + 1, app => update_functor_app .ctl (ctl_applications n app)

/-- `n`-fold application of the `Ctl` functor to a callable value through
`eval_unop` (`UnOp::Functor(Functor::Ctl)`). -/
def ctl_value_applications : Nat → Value → EvalM Value
  | 0, v => .ok v
  | n + 1, v => ctl_value_applications n v >>= eval_unop (.functor .ctl)

set_option maxRecDepth 4000 in
/-- C4 (counterexample): applying `Ctl` 256 times to the identity
`FunctorApp` does not increment `controlled` by 256 — the `u8` counter wraps
back to 0. -/
theorem claim_c4_counterexample :
    ctl_applications 256 FunctorApp.default ≠
      { adjoint := FunctorApp.default.adjoint
        controlled := FunctorApp.default.controlled + 256 } ∧
    (ctl_applications 256 FunctorApp.default).controlled = 0 := by
  constructor
  · decide
  · decide

/-- C4 (amended): on every callable value, applying `Adj` twice is the
identity; applying `Ctl` `n` times leaves the adjoint flag unchanged and
increments `controlled` by `n` modulo 2^8 (the `u8` counter wraps). -/
theorem claim_c4_amended :
    (∀ (id : StoreItemId) (app : FunctorApp) (args : List Value),
      (eval_unop (.functor .adj) (.global id app) >>=
        eval_unop (.functor .adj)) = .ok (.global id app) ∧
      (eval_unop (.functor .adj) (.closure args id app) >>=
        eval_unop (.functor .adj)) = .ok (.closure args id app)) ∧
    (∀ (n : Nat) (app : FunctorApp), app.controlled < 256 →
      ctl_applications n app =
        { adjoint := app.adjoint, controlled := (app.controlled + n) % 256 }) ∧
    (∀ (n : Nat) (id : StoreItemId) (app : FunctorApp), app.controlled < 256 →
      ctl_value_applications n (.global id app) =
        .ok (.global id
          { adjoint := app.adjoint, controlled := (app.controlled + n) % 256 })) := by
  have hstep : ∀ (n : Nat) (app : FunctorApp), app.controlled < 256 →
      ctl_applications n app =
        { adjoint := app.adjoint, controlled := (app.controlled + n) % 256 } := by
    intro n
    induction n with
    | zero =>
      intro app h
      simp [ctl_applications, Nat.mod_eq_of_lt h]
    | succ n ih =>
      intro app h
      rw [ctl_applications, ih app h]
      simp only [update_functor_app]
      have hmod : ((app.controlled + n) % 256 + 1) % 256 =
          (app.controlled + (n + 1)) % 256 := by omega
      rw [hmod]
  refine ⟨?_, hstep, ?_⟩
  · intro id app args
    cases app with
    | mk adj ctl =>
      constructor <;> simp [eval_unop, update_functor_app]
  · intro n id app h
    induction n with
    | zero =>
      simp [ctl_value_applications, Nat.mod_eq_of_lt h]
    | succ n ih =>
      rw [ctl_value_applications, ih]
      simp only [EvalM.ok_bind, eval_unop, update_functor_app]
      have hmod : ((app.controlled + n) % 256 + 1) % 256 =
          (app.controlled + (n + 1)) % 256 := by omega
      rw [hmod]

/-- C4 (witness): the amended theorem applied at a concrete callable. -/
theorem claim_c4_amended_witness :
    ctl_value_applications 3 (.global ⟨0, 0⟩ ⟨false, 1⟩) =
      .ok (.global ⟨0, 0⟩ ⟨false, 4⟩) := by
  have h := claim_c4_amended.2.2 3 ⟨0, 0⟩ ⟨false, 1⟩ (by decide)
  exact h.trans (by rfl)

end Qsc

namespace Qsc

/-! ## C7: update/index round trip -/

theorem list_set_get_self {α : Type} (l : List α) (i : Nat) (h : i < l.length) :
    l.set i l[i] = l := by
  apply List.ext_getElem
  · simp
  · intro j h1 h2
    rw [List.getElem_set]
    by_cases hij : i = j
    · subst hij; simp
    · simp [hij]

theorem eval_update_index_single_ok {a : List Value} {i : Int} (v : Value)
    (sp : PackageSpan) (h0 : 0 ≤ i) (hlt : i.toNat < a.length) :
    eval_update_index_single a i v sp = .ok (a.set i.toNat v) := by
  unfold eval_update_index_single asIndex
  rw [if_neg (by omega), if_pos h0]
  simp only [EvalM.ok_bind]
  have hget : a.get? i.toNat = some a[i.toNat] := by
    simp [List.get?_eq_getElem?, hlt]
  rw [hget]

theorem index_array_ok {a : List Value} {i : Int} (sp : PackageSpan)
    (h0 : 0 ≤ i) (hlt : i.toNat < a.length) :
    index_array a i sp = .ok a[i.toNat] := by
  unfold index_array asIndex
  rw [if_pos h0]
  simp only [EvalM.ok_bind]
  have hget : a.get? i.toNat = some a[i.toNat] := by
    simp [List.get?_eq_getElem?, hlt]
  rw [hget]

/-- C7: for an in-bounds `Int` index, indexing the result of the copying
`UpdateIndex` at the updated position yields the update value, and updating a
position with the value read from it gives back the original array. -/
theorem claim_c7_update_round_trip :
    ∀ (a : List Value) (i : Int) (v : Value) (sp sp2 : PackageSpan),
      0 ≤ i → i < (a.length : Int) →
      (∃ a', eval_update_index_single a i v sp = .ok a' ∧
        index_array a' i sp2 = .ok v) ∧
      (∀ w, index_array a i sp = .ok w →
        eval_update_index_single a i w sp2 = .ok a) := by
  intro a i v sp sp2 h0 hlen
  have hlt : i.toNat < a.length := by omega
  constructor
  · refine ⟨a.set i.toNat v, eval_update_index_single_ok v sp h0 hlt, ?_⟩
    have hlt2 : i.toNat < (a.set i.toNat v).length := by simpa using hlt
    rw [index_array_ok sp2 h0 hlt2]
    congr 1
    rw [List.getElem_set]
    simp
  · intro w hw
    rw [index_array_ok sp h0 hlt] at hw
    have : w = a[i.toNat] := by injection hw with h; exact h.symm
    subst this
    rw [eval_update_index_single_ok _ sp2 h0 hlt, list_set_get_self a i.toNat hlt]

/-- C7 (witness): the round trip at a concrete array and index. -/
theorem claim_c7_witness :
    (∃ a', eval_update_index_single [Value.int 1, Value.int 2, Value.int 3] 1
        (Value.int 9) ⟨0, ⟨0, 1⟩⟩ = .ok a' ∧
      index_array a' 1 ⟨0, ⟨2, 3⟩⟩ = .ok (Value.int 9)) ∧
    (∀ w, index_array [Value.int 1, Value.int 2, Value.int 3] 1 ⟨0, ⟨0, 1⟩⟩ =
        .ok w →
      eval_update_index_single [Value.int 1, Value.int 2, Value.int 3] 1 w
        ⟨0, ⟨2, 3⟩⟩ = .ok [Value.int 1, Value.int 2, Value.int 3]) :=
  claim_c7_update_round_trip [Value.int 1, Value.int 2, Value.int 3] 1
    (Value.int 9) ⟨0, ⟨0, 1⟩⟩ ⟨0, ⟨2, 3⟩⟩ (by decide) (by decide)

/-! ## C8: variables-in-frame ordering -/

/-- The ordering the claim asserts: bindings of the matching scopes with the
innermost scope (the last scope pushed) first. -/
def variables_in_frame_innermost_first (env : Env) (frame_id : Nat) :
    List VariableInfo :=
  ((env.reverse.filter fun scope => scope.frame_id = frame_id).map fun scope =>
    scope.bindings.map fun kv =>
      { name := kv.2.name
        type_name := kv.2.value.typeName
        value := kv.2.value
        mutability := kv.2.mutability
        span := kv.2.span : VariableInfo }).flatten

/-- C8 (counterexample): with two scopes of the same frame id, the innermost
binding `b` is listed after the outermost binding `a`, so the result is not
ordered innermost scope first. -/
theorem claim_c8_counterexample :
    get_variables_in_frame
        [⟨[(0, ⟨"a", .int 1, .immutable, ⟨0, 0⟩⟩)], 0⟩,
         ⟨[(1, ⟨"b", .int 2, .immutable, ⟨0, 0⟩⟩)], 0⟩] 0 ≠
      variables_in_frame_innermost_first
        [⟨[(0, ⟨"a", .int 1, .immutable, ⟨0, 0⟩⟩)], 0⟩,
         ⟨[(1, ⟨"b", .int 2, .immutable, ⟨0, 0⟩⟩)], 0⟩] 0 := by
  intro h
  have h2 := congrArg (List.map VariableInfo.name) h
  simp [get_variables_in_frame, variables_in_frame_innermost_first] at h2

/-- C8 (amended): the query returns all bindings of all scopes whose
`frame_id` matches, but ordered outermost scope first — the reverse of the
scope order the claim asserts (membership agrees with the innermost-first
reading; only the scope order differs). -/
theorem claim_c8_amended :
    ∀ (env : Env) (frame_id : Nat),
      get_variables_in_frame env frame_id =
        ((env.reverse.filter fun scope => scope.frame_id = frame_id).map
          fun scope =>
            scope.bindings.map fun kv =>
              { name := kv.2.name
                type_name := kv.2.value.typeName
                value := kv.2.value
                mutability := kv.2.mutability
                span := kv.2.span : VariableInfo }).reverse.flatten ∧
      (∀ info, info ∈ get_variables_in_frame env frame_id ↔
        info ∈ variables_in_frame_innermost_first env frame_id) := by
  intro env frame_id
  constructor
  · simp [get_variables_in_frame, List.filter_reverse, List.map_reverse,
      List.reverse_reverse]
  · intro info
    simp [get_variables_in_frame, variables_in_frame_innermost_first,
      List.mem_flatten, List.filter_reverse, List.map_reverse,
      List.mem_reverse]

end Qsc

namespace Qsc

/-! ## Environment lemmas (C2) -/

/-- Write a value into the variable that `Env::get_mut` finds (no-op when the
id is unbound, which the lemmas below rule out). -/
def Env.setValue (env : Env) (id : Nat) (v : Value) : Env :=
  match Env.updateVar env id (fun w => { w with value := v }) with
  | some env' => env'
  | none => env

/-- A well-formed environment: within each scope, binding ids are unique (an
`IndexMap` cannot hold duplicate keys). -/
def EnvWF (env : Env) : Prop :=
  ∀ scope ∈ env, (scope.bindings.map Prod.fst).Nodup

instance (env : Env) : Decidable (EnvWF env) := by
  unfold EnvWF
  infer_instance

theorem lookupBinding_map (l : List (Nat × Variable)) (id : Nat)
    (f : Variable → Variable) :
    lookupBinding (l.map fun kv => if kv.1 = id then (kv.1, f kv.2) else kv) id =
      (lookupBinding l id).map f := by
  induction l with
  | nil => rfl
  | cons kv rest ih =>
    obtain ⟨k, w⟩ := kv
    by_cases h : k = id
    · subst h
      rw [List.map_cons, if_pos rfl]
      rw [lookupBinding, lookupBinding, if_pos rfl, if_pos rfl]
      rfl
    · simp only [List.map_cons, if_neg h]
      rw [lookupBinding, lookupBinding, if_neg (by omega), if_neg (by omega), ih]

theorem lookupBinding_map_ne (l : List (Nat × Variable)) (id j : Nat)
    (hne : j ≠ id) (f : Variable → Variable) :
    lookupBinding (l.map fun kv => if kv.1 = id then (kv.1, f kv.2) else kv) j =
      lookupBinding l j := by
  induction l with
  | nil => rfl
  | cons kv rest ih =>
    obtain ⟨k, w⟩ := kv
    by_cases h : k = id
    · simp only [List.map_cons, if_pos h]
      rw [lookupBinding, lookupBinding, if_neg (by omega), if_neg (by omega), ih]
    · simp only [List.map_cons, if_neg h]
      by_cases h2 : j = k
      · rw [lookupBinding, lookupBinding, if_pos h2, if_pos h2]
      · rw [lookupBinding, lookupBinding, if_neg h2, if_neg h2, ih]

theorem updateVar_of_get_none {env : Env} {id : Nat}
    (h : Env.get env id = none) (f : Variable → Variable) :
    Env.updateVar env id f = none := by
  induction env with
  | nil => rfl
  | cons s rest ih =>
    rw [Env.get] at h
    rcases hrest : Env.get rest id with _ | var
    · rw [hrest] at h
      simp only [Option.orElse] at h
      rw [Env.updateVar, ih hrest, h]
      simp
    · rw [hrest] at h
      simp [Option.orElse] at h

theorem updateVar_of_get_some {env : Env} {id : Nat} {var : Variable}
    (h : Env.get env id = some var) (f : Variable → Variable) :
    ∃ env', Env.updateVar env id f = some env' ∧
      Env.get env' id = some (f var) ∧
      (∀ j, j ≠ id → Env.get env' j = Env.get env j) := by
  induction env with
  | nil => simp [Env.get] at h
  | cons s rest ih =>
    rw [Env.get] at h
    rcases hrest : Env.get rest id with _ | var'
    · rw [hrest] at h
      simp only [Option.orElse] at h
      have hnone := updateVar_of_get_none hrest f
      refine ⟨{ s with bindings := s.bindings.map fun kv =>
        if kv.1 = id then (kv.1, f kv.2) else kv } :: rest, ?_, ?_, ?_⟩
      · rw [Env.updateVar, hnone]
        simp [h]
      · rw [Env.get, hrest]
        simp only [Option.orElse]
        rw [lookupBinding_map, h]
        rfl
      · intro j hj
        rw [Env.get, Env.get]
        rcases hj2 : Env.get rest j with _ | w
        · simp only [Option.orElse]
          rw [lookupBinding_map_ne _ _ _ hj]
        · simp [Option.orElse]
    · rw [hrest] at h
      simp only [Option.orElse] at h
      cases h
      obtain ⟨rest', h1, h2, h3⟩ := ih hrest
      refine ⟨s :: rest', ?_, ?_, ?_⟩
      · rw [Env.updateVar, h1]
      · rw [Env.get, h2]
        rfl
      · intro j hj
        rw [Env.get, Env.get, h3 j hj]

theorem updateVar_comp (id : Nat) (f g : Variable → Variable) :
    ∀ (env env' : Env), Env.updateVar env id f = some env' →
      Env.updateVar env' id g = Env.updateVar env id (fun v => g (f v)) := by
  intro env
  induction env with
  | nil => intro env' h; simp [Env.updateVar] at h
  | cons s rest ih =>
    intro env' h
    rcases hrest : Env.updateVar rest id f with _ | rest'
    · rw [Env.updateVar, hrest] at h
      rcases hlk : lookupBinding s.bindings id with _ | w
      · rw [if_neg (by rw [hlk]; simp)] at h
        exact absurd h (by simp)
      · rw [if_pos (by rw [hlk]; simp)] at h
        have hget : Env.get rest id = none := by
          rcases hg : Env.get rest id with _ | w2
          · rfl
          · obtain ⟨r', hr', _⟩ := updateVar_of_get_some hg f
            rw [hr'] at hrest
            cases hrest
        have hrestg : Env.updateVar rest id g = none := updateVar_of_get_none hget g
        have hrestgf : Env.updateVar rest id (fun v => g (f v)) = none :=
          updateVar_of_get_none hget _
        cases h
        rw [Env.updateVar, hrestg, Env.updateVar, hrestgf]
        have hsome2 : (lookupBinding (s.bindings.map fun kv =>
            if kv.1 = id then (kv.1, f kv.2) else kv) id).isSome := by
          rw [lookupBinding_map, hlk]
          simp
        rw [if_pos hsome2, if_pos (by rw [hlk]; simp)]
        have hmm : ((s.bindings.map fun kv =>
            if kv.1 = id then (kv.1, f kv.2) else kv).map fun kv =>
              if kv.1 = id then (kv.1, g kv.2) else kv) =
            s.bindings.map fun kv => if kv.1 = id then (kv.1, g (f kv.2)) else kv := by
          rw [List.map_map]
          apply List.map_congr_left
          intro kv _
          by_cases hk : kv.1 = id
          · simp [hk]
          · simp [hk]
        simp only [hmm]
    · rw [Env.updateVar, hrest] at h
      cases h
      rw [Env.updateVar, ih rest' hrest, Env.updateVar]
      rcases hgf : Env.updateVar rest id (fun v => g (f v)) with _ | r''
      · have hget : Env.get rest id = none := by
          rcases hg : Env.get rest id with _ | w
          · rfl
          · obtain ⟨r', hr', _⟩ := updateVar_of_get_some hg (fun v => g (f v))
            rw [hr'] at hgf
            cases hgf
        rw [updateVar_of_get_none hget f] at hrest
        cases hrest
      · rfl

end Qsc

namespace Qsc

theorem setValue_get {env : Env} {id : Nat} {var : Variable}
    (h : Env.get env id = some var) (v : Value) :
    Env.get (Env.setValue env id v) id = some { var with value := v } := by
  obtain ⟨env', h1, h2, _⟩ := updateVar_of_get_some h fun w => { w with value := v }
  unfold Env.setValue
  rw [h1]
  exact h2

theorem setValue_setValue {env : Env} {id : Nat} (x y : Value)
    (hv : (Env.get env id).isSome) :
    Env.setValue (Env.setValue env id x) id y = Env.setValue env id y := by
  obtain ⟨var, h⟩ := Option.isSome_iff_exists.mp hv
  obtain ⟨env', h1, _, _⟩ := updateVar_of_get_some h fun w => { w with value := x }
  obtain ⟨env2, h2, _, _⟩ := updateVar_of_get_some h fun w => { w with value := y }
  have e1 : Env.setValue env id x = env' := by
    unfold Env.setValue
    rw [h1]
  have hcomp := updateVar_comp id (fun w => { w with value := x })
    (fun w => { w with value := y }) env env' h1
  have h3 : Env.updateVar env' id (fun w => { w with value := y }) = some env2 := by
    rw [hcomp]
    exact h2
  rw [e1]
  have e2 : Env.setValue env' id y = env2 := by
    unfold Env.setValue
    rw [h3]
  have e3 : Env.setValue env id y = env2 := by
    unfold Env.setValue
    rw [h2]
  rw [e2, e3]

theorem map_if_eq_id (l : List (Nat × Variable)) (id : Nat)
    (F : Nat × Variable → Nat × Variable) (hid : ∀ kv ∈ l, kv.1 ≠ id) :
    (l.map fun kv => if kv.1 = id then F kv else kv) = l := by
  induction l with
  | nil => rfl
  | cons kv rest ih =>
    rw [List.map_cons, if_neg (hid kv (by simp)), ih]
    intro kv2 h2
    exact hid kv2 (by simp [h2])

theorem map_setValue_id (l : List (Nat × Variable)) (id : Nat) (var : Variable)
    (hnd : (l.map Prod.fst).Nodup) (hl : lookupBinding l id = some var) :
    (l.map fun kv =>
      if kv.1 = id then (kv.1, { kv.2 with value := var.value }) else kv) = l := by
  induction l with
  | nil => simp [lookupBinding] at hl
  | cons kv rest ih =>
    obtain ⟨k, w⟩ := kv
    rw [List.map_cons] at hnd ⊢
    by_cases hk : k = id
    · subst hk
      rw [lookupBinding, if_pos rfl] at hl
      cases hl
      rw [if_pos rfl]
      have hnotin : ∀ kv2 ∈ rest, kv2.1 ≠ k := by
        intro kv2 h2 hc
        have hmem : kv2.1 ∈ rest.map Prod.fst := List.mem_map_of_mem Prod.fst h2
        have hni := (List.nodup_cons.mp hnd).1
        rw [hc] at hmem
        exact hni hmem
      rw [map_if_eq_id rest k _ hnotin]
    · rw [lookupBinding, if_neg (by omega)] at hl
      rw [if_neg hk, ih (List.nodup_cons.mp hnd).2 hl]

theorem updateVar_id_of_get {env : Env} {id : Nat} {var : Variable}
    (hwf : EnvWF env) (h : Env.get env id = some var) :
    Env.updateVar env id (fun w => { w with value := var.value }) = some env := by
  induction env with
  | nil => simp [Env.get] at h
  | cons s rest ih =>
    rw [Env.get] at h
    rcases hrest : Env.get rest id with _ | var'
    · rw [hrest] at h
      simp only [Option.orElse] at h
      rw [Env.updateVar, updateVar_of_get_none hrest _]
      rw [if_pos (by rw [h]; simp)]
      have hnd : (s.bindings.map Prod.fst).Nodup := hwf s (by simp)
      rw [map_setValue_id s.bindings id var hnd h]
    · rw [hrest] at h
      simp only [Option.orElse] at h
      cases h
      have hwfrest : EnvWF rest := fun sc hsc => hwf sc (by simp [hsc])
      rw [Env.updateVar, ih hwfrest hrest]

theorem setValue_same {env : Env} {id : Nat} {var : Variable}
    (hwf : EnvWF env) (h : Env.get env id = some var) :
    Env.setValue env id var.value = env := by
  unfold Env.setValue
  rw [updateVar_id_of_get hwf h]

theorem keys_map_if (l : List (Nat × Variable)) (id : Nat)
    (F : Variable → Variable) :
    ((l.map fun kv => if kv.1 = id then (kv.1, F kv.2) else kv).map Prod.fst) =
      l.map Prod.fst := by
  induction l with
  | nil => rfl
  | cons kv rest ih =>
    rw [List.map_cons, List.map_cons, List.map_cons]
    by_cases h : kv.1 = id
    · rw [if_pos h, ih]
    · rw [if_neg h, ih]

theorem envWF_updateVar {id : Nat} {f : Variable → Variable} :
    ∀ {env env' : Env}, Env.updateVar env id f = some env' → EnvWF env →
      EnvWF env' := by
  intro env
  induction env with
  | nil => intro env' h; simp [Env.updateVar] at h
  | cons s rest ih =>
    intro env' h hwf
    have hwfrest : EnvWF rest := fun sc hsc => hwf sc (by simp [hsc])
    rw [Env.updateVar] at h
    rcases hrest : Env.updateVar rest id f with _ | rest'
    · rw [hrest] at h
      by_cases hlk : (lookupBinding s.bindings id).isSome
      · rw [if_pos hlk] at h
        cases h
        intro sc hsc
        rcases List.mem_cons.mp hsc with hsc | hsc
        · subst hsc
          show ((s.bindings.map fun kv =>
            if kv.1 = id then (kv.1, f kv.2) else kv).map Prod.fst).Nodup
          rw [keys_map_if]
          exact hwf s (by simp)
        · exact hwfrest sc hsc
      · rw [if_neg hlk] at h
        exact absurd h (by simp)
    · rw [hrest] at h
      cases h
      intro sc hsc
      rcases List.mem_cons.mp hsc with hsc | hsc
      · subst hsc
        exact hwf sc (by simp)
      · exact ih hrest hwfrest sc hsc

theorem envWF_setValue (env : Env) (id : Nat) (v : Value) (h : EnvWF env) :
    EnvWF (Env.setValue env id v) := by
  unfold Env.setValue
  rcases hu : Env.updateVar env id (fun w => { w with value := v }) with _ | env'
  · exact h
  · exact envWF_updateVar hu h

end Qsc

namespace Qsc

/-! ## C2: in-place vs copying index update -/

/-- The only observable difference between the two `AssignIndex` paths: where
the copying path's `as_index` reports a negative range position as
`InvalidIndex`, the in-place path's explicit check reports
`InvalidNegativeInt`. -/
def neg_index_errmap : Fail → Fail
  | .error (.invalidIndex i sp) => .error (.invalidNegativeInt i sp)
  | f => f

/-- Map the failure channel of an evaluator outcome. -/
def map_fail {α : Type} (f : Fail → Fail) : EvalM α → EvalM α
  | .ok a => .ok a
  | .error e => .error (f e)

theorem update_binding_var_ok {env : Env} {id : Nat} {name : String}
    {vv : Value} {vsp : Span}
    (hv : Env.get env id = some ⟨name, vv, .mutable, vsp⟩)
    (sp : Span) (rhs : Value) (pkg : Nat) :
    update_binding env (.var id sp) rhs pkg = .ok (Env.setValue env id rhs) := by
  obtain ⟨env2, hu, _, _⟩ := updateVar_of_get_some hv fun w => { w with value := rhs }
  have hsv : Env.setValue env id rhs = env2 := by
    unfold Env.setValue
    rw [hu]
  rw [update_binding, hv, hsv]
  simp [Variable.is_mutable, hu]

theorem range_go_equiv (span : PackageSpan) (id : Nat) (name : String)
    (vsp : Span) :
    ∀ (us : List Value) (r : Range) (values : List Value) (env : Env),
      EnvWF env →
      Env.get env id = some ⟨name, .array values, .mutable, vsp⟩ →
      update_array_index_range_go span id env r us =
        (match eval_update_index_range_go span values r us with
         | .ok newArr => .ok (Env.setValue env id (.array newArr))
         | .error e => .error (neg_index_errmap e)) := by
  intro us
  induction us with
  | nil =>
    intro r values env hwf hv
    rw [update_array_index_range_go, eval_update_index_range_go]
    have h0 : Env.setValue env id (Value.array values) = env := setValue_same hwf hv
    show Except.ok env = Except.ok (Env.setValue env id (Value.array values))
    rw [h0]
  | cons u rest ih =>
    intro r values env hwf hv
    rw [update_array_index_range_go, eval_update_index_range_go]
    rcases hnext : r.next with ⟨onext, r'⟩
    cases onext with
    | none =>
      have h0 : Env.setValue env id (Value.array values) = env := setValue_same hwf hv
      simp [hnext, h0]
    | some idx =>
      by_cases hneg : idx < 0
      · have hno : ¬ 0 ≤ idx := by omega
        simp [hnext, if_pos hneg, asIndex, raiseError, if_neg hno, neg_index_errmap]
      · have hyes : 0 ≤ idx := by omega
        rcases hg : values[idx.toNat]? with _ | w
        · have hlen : ¬ idx.toNat < values.length := by
            intro hc
            rw [List.getElem?_eq_getElem hc] at hg
            cases hg
          have hupd : Value.update_array (.array values) idx.toNat u =
              .outOfRange idx.toNat := by
            simp only [Value.update_array]
            rw [if_neg hlen]
          have hcast : (idx.toNat : Int) = idx := Int.toNat_of_nonneg hyes
          simp [hnext, if_neg hneg, asIndex, if_pos hyes, hv, hupd, hg,
            raiseError, neg_index_errmap, hcast, List.get?_eq_getElem?]
        · have hlen : idx.toNat < values.length := by
            by_contra hc
            rw [List.getElem?_eq_none (by omega)] at hg
            cases hg
          have hupd : Value.update_array (.array values) idx.toNat u =
              .ok (.array (values.set idx.toNat u)) := by
            simp only [Value.update_array]
            rw [if_pos hlen]
          obtain ⟨env2, hu, hget2, _⟩ :=
            updateVar_of_get_some hv
              fun v => { v with value := Value.array (values.set idx.toNat u) }
          have hv2 : Env.get env2 id =
              some ⟨name, .array (values.set idx.toNat u), .mutable, vsp⟩ := hget2
          have hwf2 : EnvWF env2 := envWF_updateVar hu hwf
          have hsv : Env.setValue env id (Value.array (values.set idx.toNat u)) =
              env2 := by
            unfold Env.setValue
            rw [hu]
          have hrec := ih r' (values.set idx.toNat u) env2 hwf2 hv2
          have hisSome : (Env.get env id).isSome := by
            rw [hv]
            rfl
          rcases hcg : eval_update_index_range_go span (values.set idx.toNat u)
              r' rest with e | na
          · simp [hnext, if_neg hneg, asIndex, if_pos hyes, hv, hupd, hg, hu,
              hrec, hcg, List.get?_eq_getElem?]
          · simp only [hnext, if_neg hneg, asIndex, if_pos hyes, hv, hupd, hg,
              hu, EvalM.ok_bind, List.get?_eq_getElem?]
            rw [hrec, hcg]
            simp only [← hsv, setValue_setValue _ _ hisSome]

end Qsc

namespace Qsc

/-- C2 (counterexample): on a range producing a negative index the copying
path fails with `InvalidIndex` while the in-place path fails with
`InvalidNegativeInt` — not "exactly the same error". -/
theorem claim_c2_counterexample :
    assign_index_copy [⟨[(0, ⟨"a", .array [.int 0], .mutable, ⟨0, 0⟩⟩)], 0⟩] 0
        ⟨0, 0⟩ (.range (some (-1)) 1 (some (-1))) (.array [.int 1])
        ⟨0, ⟨5, 6⟩⟩ 0 =
      raiseError (.invalidIndex (-1) ⟨0, ⟨5, 6⟩⟩) ∧
    assign_index_in_place [⟨[(0, ⟨"a", .array [.int 0], .mutable, ⟨0, 0⟩⟩)], 0⟩]
        0 ⟨0, 0⟩ (.range (some (-1)) 1 (some (-1))) (.array [.int 1])
        ⟨0, ⟨5, 6⟩⟩ 0 =
      raiseError (.invalidNegativeInt (-1) ⟨0, ⟨5, 6⟩⟩) ∧
    EvalError.invalidIndex (-1) ⟨0, ⟨5, 6⟩⟩ ≠
      EvalError.invalidNegativeInt (-1) ⟨0, ⟨5, 6⟩⟩ := by
  refine ⟨rfl, rfl, by decide⟩

/-- C2 (amended): for a mutable Array-typed local (the unique-ownership
condition that selects the in-place path is a heap property and is assumed as
the precondition of the comparison), `UpdateIndexInPlace` has the same
semantics as the copying `UpdateIndex` followed by assignment — the same
resulting bound array and the same error — except that a range position that
is negative fails with `InvalidNegativeInt` on the in-place path where the
copying path fails with `InvalidIndex`. -/
theorem claim_c2_amended :
    ∀ (env : Env) (id : Nat) (sp vsp : Span) (name : String)
      (arr : List Value) (update : Value) (span : PackageSpan) (pkg : Nat),
      EnvWF env →
      Env.get env id = some ⟨name, .array arr, .mutable, vsp⟩ →
      (∀ i : Int,
        assign_index_in_place env id sp (.int i) update span pkg =
          assign_index_copy env id sp (.int i) update span pkg) ∧
      (∀ (start : Option Int) (step : Int) (stop : Option Int)
          (us : List Value),
        assign_index_in_place env id sp (.range start step stop)
            (.array us) span pkg =
          map_fail neg_index_errmap
            (assign_index_copy env id sp (.range start step stop)
              (.array us) span pkg)) := by
  intro env id sp vsp name arr update span pkg hwf hv
  have hm : Variable.is_mutable ⟨name, .array arr, .mutable, vsp⟩ = true := rfl
  constructor
  · intro i
    by_cases hneg : i < 0
    · simp [assign_index_in_place, assign_index_copy, eval_update_index_in_place,
        eval_update_index, eval_update_index_single, if_pos hneg, hv,
        Value.unwrapArray, raiseError]
    · have hyes : 0 ≤ i := by omega
      have hcast : (i.toNat : Int) = i := Int.toNat_of_nonneg hyes
      rcases hgl : arr[i.toNat]? with _ | w
      · have hlen : ¬ i.toNat < arr.length := by
          intro hc
          rw [List.getElem?_eq_getElem hc] at hgl
          cases hgl
        have hupd : Value.update_array (.array arr) i.toNat update =
            .outOfRange i.toNat := by
          simp only [Value.update_array]
          rw [if_neg hlen]
        simp [assign_index_in_place, assign_index_copy,
          eval_update_index_in_place, eval_update_index,
          eval_update_index_single, update_array_index_single, if_neg hneg,
          asIndex, if_pos hyes, hv, hm, hupd, hgl, Value.unwrapArray,
          raiseError, hcast, List.get?_eq_getElem?]
      · have hlen : i.toNat < arr.length := by
          by_contra hc
          rw [List.getElem?_eq_none (by omega)] at hgl
          cases hgl
        have hupd : Value.update_array (.array arr) i.toNat update =
            .ok (.array (arr.set i.toNat update)) := by
          simp only [Value.update_array]
          rw [if_pos hlen]
        obtain ⟨env2, hu, _, _⟩ := updateVar_of_get_some hv
          fun v => { v with value := Value.array (arr.set i.toNat update) }
        have hub := update_binding_var_ok hv sp (.array (arr.set i.toNat update)) pkg
        have hsv : Env.setValue env id (Value.array (arr.set i.toNat update)) =
            env2 := by
          unfold Env.setValue
          rw [hu]
        rw [hsv] at hub
        simp [assign_index_in_place, assign_index_copy,
          eval_update_index_in_place, eval_update_index,
          eval_update_index_single, update_array_index_single, if_neg hneg,
          asIndex, if_pos hyes, hv, hm, hupd, hgl, hu, hub, Value.unwrapArray,
          List.get?_eq_getElem?]
  · intro start step stop us
    rcases hmr : make_range arr start step stop span with e | r
    · have he : e = .error (.rangeStepZero span) ∨
          e = .error (.arrayTooLarge span) := by
        unfold make_range at hmr
        by_cases h0 : step = 0
        · rw [if_pos h0] at hmr
          simp [raiseError] at hmr
          left
          rw [hmr]
        · rw [if_neg h0] at hmr
          by_cases hl : (arr.length : Int) ≤ i64Max
          · rw [if_pos hl] at hmr
            simp at hmr
          · rw [if_neg hl] at hmr
            simp [raiseError] at hmr
            right
            rw [hmr]
      have hnm : neg_index_errmap e = e := by
        rcases he with h | h <;> subst h <;> rfl
      simp [assign_index_in_place, assign_index_copy,
        eval_update_index_in_place, eval_update_index,
        eval_update_index_range, update_array_index_range, hv, hm, hmr,
        Value.unwrapArray, map_fail, hnm]
    · have hloop := range_go_equiv span id name vsp us r arr env hwf hv
      rcases hcg : eval_update_index_range_go span arr r us with e | na
      · simp [assign_index_in_place, assign_index_copy,
          eval_update_index_in_place, eval_update_index,
          eval_update_index_range, update_array_index_range, hv, hm, hmr,
          Value.unwrapArray, map_fail, hloop, hcg]
      · have hub := update_binding_var_ok hv sp (.array na) pkg
        simp [assign_index_in_place, assign_index_copy,
          eval_update_index_in_place, eval_update_index,
          eval_update_index_range, update_array_index_range, hv, hm, hmr,
          Value.unwrapArray, map_fail, hloop, hcg, hub]

/-- C2 (witness): the amended equivalence at a concrete environment. -/
theorem claim_c2_amended_witness :
    assign_index_in_place
        [⟨[(1, ⟨"xs", .array [.int 0, .int 1], .mutable, ⟨0, 0⟩⟩)], 0⟩] 1
        ⟨0, 0⟩ (.int 0) (.int 7) ⟨0, ⟨1, 2⟩⟩ 0 =
      assign_index_copy
        [⟨[(1, ⟨"xs", .array [.int 0, .int 1], .mutable, ⟨0, 0⟩⟩)], 0⟩] 1
        ⟨0, 0⟩ (.int 0) (.int 7) ⟨0, ⟨1, 2⟩⟩ 0 ∧
    assign_index_in_place
        [⟨[(1, ⟨"xs", .array [.int 0, .int 1], .mutable, ⟨0, 0⟩⟩)], 0⟩] 1
        ⟨0, 0⟩ (.range none 1 none) (.array [.int 7]) ⟨0, ⟨1, 2⟩⟩ 0 =
      map_fail neg_index_errmap
        (assign_index_copy
          [⟨[(1, ⟨"xs", .array [.int 0, .int 1], .mutable, ⟨0, 0⟩⟩)], 0⟩] 1
          ⟨0, 0⟩ (.range none 1 none) (.array [.int 7]) ⟨0, ⟨1, 2⟩⟩ 0) := by
  have h := claim_c2_amended
    [⟨[(1, ⟨"xs", .array [.int 0, .int 1], .mutable, ⟨0, 0⟩⟩)], 0⟩] 1
    ⟨0, 0⟩ ⟨0, 0⟩ "xs" [.int 0, .int 1] (.int 7) ⟨0, ⟨1, 2⟩⟩ 0
    (by decide) (by rfl)
  exact ⟨h.1 0, h.2 none 1 none [.int 7]⟩

end Qsc

namespace Qsc

/-! ## C9: tuple arity mismatch in binding and assignment -/

mutual

/-- A pattern/value pair on which `bind_value` cannot panic: tuple patterns
require tuple values at each zipped position (arity may differ — the `zip`
truncates). -/
def patCompat : Pat → Value → Bool
  | .bind _ _ _, _ => true
  | .discard, _ => true
  | .tuple ps, .tuple vs => patCompatList ps vs
  | .tuple _, _ => false

/-- `patCompat` over zipped lists (stopping at the shorter side, like the
source's `zip`). -/
def patCompatList : List Pat → List Value → Bool
  | [], _ => true
  | _ :: _, [] => true
  | p :: ps, v :: vs => patCompat p v && patCompatList ps vs

end

/-- The binding/mutability status of a local id — everything `update_binding`
can observe about a variable other than its value. -/
def mutStatus (env : Env) (j : Nat) : Option Bool :=
  (Env.get env j).map Variable.is_mutable

mutual

/-- An assignment target on which `update_binding` neither panics nor errors:
holes always, locals that are bound and mutable, tuples of such against tuple
values at each zipped position. -/
def lhsOk : Env → AssignLhs → Value → Bool
  | _, .hole, _ => true
  | env, .var id _, _ => ((Env.get env id).map Variable.is_mutable).getD false
  | env, .tuple es, .tuple vs => lhsOkList env es vs
  | _, .tuple _, _ => false
  | _, .other, _ => false

/-- `lhsOk` over zipped lists. -/
def lhsOkList : Env → List AssignLhs → List Value → Bool
  | _, [], _ => true
  | _, _ :: _, [] => true
  | env, e :: es, v :: vs => lhsOk env e v && lhsOkList env es vs

end

theorem bindLast_some (env : Env) (id : Nat) (v : Variable) (henv : env ≠ []) :
    ∃ env', Env.bindLast env id v = some env' ∧ env'.length = env.length := by
  induction env with
  | nil => exact absurd rfl henv
  | cons s rest ih =>
    cases rest with
    | nil => exact ⟨_, rfl, rfl⟩
    | cons s2 rest2 =>
      obtain ⟨env', h1, h2⟩ := ih (by simp)
      refine ⟨s :: env', ?_, by simp [h2]⟩
      rw [Env.bindLast, h1]
      rfl

theorem bind_value_tuple_take :
    ∀ (ps : List Pat) (vs : List Value) (env : Env) (mu : Mutability),
      bind_value_tuple env ps vs mu =
        bind_value_tuple env (ps.take (min ps.length vs.length))
          (vs.take (min ps.length vs.length)) mu := by
  intro ps
  induction ps with
  | nil => intro vs env mu; simp [bind_value_tuple]
  | cons p ps ih =>
    intro vs env mu
    cases vs with
    | nil => simp [bind_value_tuple]
    | cons v vs =>
      simp only [List.length_cons, Nat.succ_min_succ, List.take_succ_cons]
      rw [bind_value_tuple, bind_value_tuple]
      rcases h : bind_value env p v mu with _ | env'
      · rfl
      · exact ih vs env' mu

theorem update_binding_tuple_take :
    ∀ (es : List AssignLhs) (vs : List Value) (env : Env) (pkg : Nat),
      update_binding_tuple env es vs pkg =
        update_binding_tuple env (es.take (min es.length vs.length))
          (vs.take (min es.length vs.length)) pkg := by
  intro es
  induction es with
  | nil => intro vs env pkg; simp [update_binding_tuple]
  | cons e es ih =>
    intro vs env pkg
    cases vs with
    | nil => simp [update_binding_tuple]
    | cons v vs =>
      simp only [List.length_cons, Nat.succ_min_succ, List.take_succ_cons]
      rw [update_binding_tuple, update_binding_tuple]
      rcases h : update_binding env e v pkg with f | env'
      · rfl
      · exact ih vs env' pkg

mutual

theorem bind_value_some (p : Pat) (env : Env) (v : Value) (mu : Mutability)
    (henv : env ≠ []) (hc : patCompat p v = true) :
    ∃ env', bind_value env p v mu = some env' ∧ env'.length = env.length :=
  match p, v, hc with
  | .bind id nm sp, v, _ => by
      obtain ⟨env', h1, h2⟩ := bindLast_some env id ⟨nm, v, mu, sp⟩ henv
      exact ⟨env', by rw [bind_value]; exact h1, h2⟩
  | .discard, _, _ => ⟨env, by rw [bind_value], rfl⟩
  | .tuple ps, .tuple vs, hc => by
      obtain ⟨env', h1, h2⟩ := bind_value_tuple_some ps vs env mu henv
        (by simpa [patCompat] using hc)
      exact ⟨env', by rw [bind_value]; exact h1, h2⟩

theorem bind_value_tuple_some (ps : List Pat) (vs : List Value) (env : Env)
    (mu : Mutability) (henv : env ≠ []) (hc : patCompatList ps vs = true) :
    ∃ env', bind_value_tuple env ps vs mu = some env' ∧
      env'.length = env.length :=
  match ps, vs, hc with
  | [], _, _ => ⟨env, by rw [bind_value_tuple], rfl⟩
  | _ :: _, [], _ => ⟨env, by rw [bind_value_tuple], rfl⟩
  | p :: ps, v :: vs, hc => by
      have hc' := hc
      rw [patCompatList, Bool.and_eq_true] at hc'
      obtain ⟨hc1, hc2⟩ := hc'
      obtain ⟨env1, h1, hl1⟩ := bind_value_some p env v mu henv hc1
      obtain ⟨env2, h2, hl2⟩ := bind_value_tuple_some ps vs env1 mu
        (by
          intro hnil
          rw [hnil] at hl1
          exact henv (List.length_eq_zero.mp hl1.symm)) hc2
      exact ⟨env2, by rw [bind_value_tuple, h1]; exact h2, by rw [hl2, hl1]⟩

end

end Qsc

namespace Qsc

mutual

theorem lhsOk_congr (e : AssignLhs) (v : Value) (env env' : Env)
    (h : ∀ j, mutStatus env' j = mutStatus env j) :
    lhsOk env' e v = lhsOk env e v :=
  match e, v with
  | .hole, _ => by simp [lhsOk]
  | .var id sp, v => by
      rw [lhsOk, lhsOk]
      have hj := h id
      unfold mutStatus at hj
      rw [hj]
  | .tuple es, v => by
      cases v
      case tuple vs =>
        rw [lhsOk, lhsOk]
        exact lhsOkList_congr es vs env env' h
      all_goals simp [lhsOk]
  | .other, _ => by simp [lhsOk]

theorem lhsOkList_congr (es : List AssignLhs) (vs : List Value) (env env' : Env)
    (h : ∀ j, mutStatus env' j = mutStatus env j) :
    lhsOkList env' es vs = lhsOkList env es vs :=
  match es, vs with
  | [], _ => by simp [lhsOkList]
  | _ :: _, [] => by simp [lhsOkList]
  | e :: es, v :: vs => by
      rw [lhsOkList, lhsOkList, lhsOk_congr e v env env' h,
        lhsOkList_congr es vs env env' h]

end

mutual

theorem update_binding_ok (e : AssignLhs) (env : Env) (v : Value) (pkg : Nat)
    (h : lhsOk env e v = true) :
    ∃ env', update_binding env e v pkg = .ok env' ∧
      ∀ j, mutStatus env' j = mutStatus env j :=
  match e, v, h with
  | .hole, _, _ => ⟨env, by rw [update_binding], fun j => rfl⟩
  | .var id sp, v, h => by
      rw [lhsOk] at h
      rcases hg : Env.get env id with _ | var
      · rw [hg] at h
        simp at h
      · rw [hg] at h
        simp at h
        obtain ⟨env2, hu, hg2, hne⟩ := updateVar_of_get_some hg
          fun w => { w with value := v }
        refine ⟨env2, ?_, ?_⟩
        · rw [update_binding, hg]
          simp [h, hu]
        · intro j
          by_cases hj : j = id
          · subst hj
            unfold mutStatus
            rw [hg2, hg]
            rfl
          · unfold mutStatus
            rw [hne j hj]
  | .tuple es, v, h => by
      cases v
      case tuple vs =>
        rw [lhsOk] at h
        obtain ⟨env2, h2, hp⟩ := update_binding_tuple_ok es vs env pkg h
        exact ⟨env2, by rw [update_binding]; exact h2, hp⟩
      all_goals simp [lhsOk] at h
  | .other, _, h => by simp [lhsOk] at h

theorem update_binding_tuple_ok (es : List AssignLhs) (vs : List Value)
    (env : Env) (pkg : Nat) (h : lhsOkList env es vs = true) :
    ∃ env', update_binding_tuple env es vs pkg = .ok env' ∧
      ∀ j, mutStatus env' j = mutStatus env j :=
  match es, vs, h with
  | [], _, _ => ⟨env, by rw [update_binding_tuple], fun j => rfl⟩
  | _ :: _, [], _ => ⟨env, by rw [update_binding_tuple], fun j => rfl⟩
  | e :: es, v :: vs, h => by
      rw [lhsOkList, Bool.and_eq_true] at h
      obtain ⟨h1, h2⟩ := h
      obtain ⟨env1, he1, hp1⟩ := update_binding_ok e env v pkg h1
      have h2' : lhsOkList env1 es vs = true := by
        rw [lhsOkList_congr es vs env env1 hp1]
        exact h2
      obtain ⟨env2, he2, hp2⟩ := update_binding_tuple_ok es vs env1 pkg h2'
      refine ⟨env2, ?_, fun j => (hp2 j).trans (hp1 j)⟩
      rw [update_binding_tuple, he1]
      exact he2

end

/-- C9: binding a tuple pattern against a tuple value of different arity, and
tuple assignment against a tuple value of different arity, silently process
only the zipped prefix (the shorter of the two arities): the excess pattern
elements and excess value elements are dropped by the truncation equations,
and no panic or error occurs (given a non-empty environment for binding and
bound mutable targets for assignment, the preconditions every caller
guarantees). -/
theorem claim_c9_tuple_arity_mismatch :
    (∀ (env : Env) (ps : List Pat) (vs : List Value) (mu : Mutability),
      bind_value env (.tuple ps) (.tuple vs) mu =
        bind_value env (.tuple (ps.take (min ps.length vs.length)))
          (.tuple (vs.take (min ps.length vs.length))) mu) ∧
    (∀ (env : Env) (ps : List Pat) (vs : List Value) (mu : Mutability),
      env ≠ [] → patCompatList ps vs = true →
      ∃ env', bind_value env (.tuple ps) (.tuple vs) mu = some env') ∧
    (∀ (env : Env) (es : List AssignLhs) (vs : List Value) (pkg : Nat),
      update_binding env (.tuple es) (.tuple vs) pkg =
        update_binding env (.tuple (es.take (min es.length vs.length)))
          (.tuple (vs.take (min es.length vs.length))) pkg) ∧
    (∀ (env : Env) (es : List AssignLhs) (vs : List Value) (pkg : Nat),
      lhsOkList env es vs = true →
      ∃ env', update_binding env (.tuple es) (.tuple vs) pkg = .ok env') := by
  refine ⟨?_, ?_, ?_, ?_⟩
  · intro env ps vs mu
    rw [bind_value, bind_value, bind_value_tuple_take]
  · intro env ps vs mu henv hc
    obtain ⟨env', h1, _⟩ := bind_value_tuple_some ps vs env mu henv hc
    exact ⟨env', by rw [bind_value]; exact h1⟩
  · intro env es vs pkg
    rw [update_binding, update_binding, update_binding_tuple_take]
  · intro env es vs pkg h
    obtain ⟨env', h1, _⟩ := update_binding_tuple_ok es vs env pkg h
    exact ⟨env', by rw [update_binding]; exact h1⟩

/-- C9 (witness): a 3-element pattern against a 2-element tuple binds without
panicking, and a 3-target tuple assignment against a 2-element tuple succeeds
without touching the third target (which is not even bound). -/
theorem claim_c9_witness :
    (∃ env', bind_value [⟨[], 0⟩]
      (.tuple [.bind 0 "x" ⟨0, 0⟩, .bind 1 "y" ⟨0, 0⟩, .bind 2 "z" ⟨0, 0⟩])
      (.tuple [.int 1, .int 2]) .immutable = some env') ∧
    (∃ env', update_binding
      [⟨[(0, ⟨"x", .int 0, .mutable, ⟨0, 0⟩⟩),
         (1, ⟨"y", .int 0, .mutable, ⟨0, 0⟩⟩)], 0⟩]
      (.tuple [.var 0 ⟨0, 0⟩, .var 1 ⟨0, 0⟩, .var 5 ⟨0, 0⟩])
      (.tuple [.int 1, .int 2]) 0 = .ok env') := by
  constructor
  · exact claim_c9_tuple_arity_mismatch.2.1 [⟨[], 0⟩]
      [.bind 0 "x" ⟨0, 0⟩, .bind 1 "y" ⟨0, 0⟩, .bind 2 "z" ⟨0, 0⟩]
      [.int 1, .int 2] .immutable (by simp)
      (by simp [patCompatList, patCompat])
  · exact claim_c9_tuple_arity_mismatch.2.2.2
      [⟨[(0, ⟨"x", .int 0, .mutable, ⟨0, 0⟩⟩),
         (1, ⟨"y", .int 0, .mutable, ⟨0, 0⟩⟩)], 0⟩]
      [.var 0 ⟨0, 0⟩, .var 1 ⟨0, 0⟩, .var 5 ⟨0, 0⟩]
      [.int 1, .int 2] 0
      (by simp [lhsOkList, lhsOk, Env.get, lookupBinding, Variable.is_mutable,
        Option.orElse])

end Qsc

namespace Qsc

/-! ## C10: totality of array slicing -/

/-- The outcomes `slice_array`'s iteration can produce. -/
def slice_outcome_ok (sp : PackageSpan) (res : EvalM (List Value)) : Prop :=
  (∃ l, res = .ok l) ∨ (∃ i, res = .error (.error (.invalidIndex i sp))) ∨
    (∃ i, res = .error (.error (.indexOutOfRange i sp)))

theorem slice_go_total (arr : List Value) (sp : PackageSpan) :
    ∀ (fuel : Nat) (r : Range) (ov : Bool),
      r.step ≠ 0 → inI64 r.step → inI64 r.curr →
      (arr.length : Int) ≤ i64Max →
      1 ≤ fuel →
      (0 < r.step → 0 ≤ r.curr → r.curr < (arr.length : Int) →
        (arr.length : Int) - r.curr + 1 ≤ (fuel : Int)) →
      (r.step < 0 → 0 ≤ r.curr → r.curr < (arr.length : Int) →
        r.curr + 2 ≤ (fuel : Int)) →
      ∃ res, (slice_array_go arr sp fuel r ov).1 = some res ∧
        slice_outcome_ok sp res := by
  intro fuel
  induction fuel with
  | zero =>
    intro r ov _ _ _ _ h1
    omega
  | succ fuel ih =>
    intro r ov hs0 hsI hcI hlen h1 hm1 hm2
    obtain ⟨st, en, cu⟩ := r
    simp only at hs0 hsI hcI hm1 hm2
    by_cases hcond : (st > 0 ∧ cu ≤ en) ∨ (st < 0 ∧ cu ≥ en)
    · have hnext : Range.next ⟨st, en, cu⟩ =
          (some cu, ⟨st, en, wrap64 (cu + st)⟩) := by
        simp [Range.next, hcond]
      by_cases hneg : 0 ≤ cu
      · rcases hgl : arr[cu.toNat]? with _ | w
        · have hidx : index_array arr cu sp =
              .error (.error (.indexOutOfRange cu sp)) := by
            simp [index_array, asIndex, hneg, List.get?_eq_getElem?, hgl,
              raiseError]
          simp only [slice_array_go, hnext, hidx]
          exact ⟨_, rfl, .inr (.inr ⟨cu, rfl⟩)⟩
        · have hlt : cu.toNat < arr.length := by
            by_contra hc
            rw [List.getElem?_eq_none (by omega)] at hgl
            cases hgl
          have hcu_lt : cu < (arr.length : Int) := by omega
          have hidx : index_array arr cu sp = .ok w := by
            simp [index_array, asIndex, hneg, List.get?_eq_getElem?, hgl]
          have hfuel1 : 1 ≤ fuel := by
            rcases lt_trichotomy st 0 with h | h | h
            · have := hm2 h hneg hcu_lt
              omega
            · omega
            · have := hm1 h hneg hcu_lt
              omega
          have hrec := ih ⟨st, en, wrap64 (cu + st)⟩
            (ov || Range.advanceOverflows ⟨st, en, cu⟩) hs0 hsI
            (wrap64_inI64 _) hlen hfuel1 ?_ ?_
          rotate_left
          · intro hstpos hc0 hcl
            simp only at hstpos hc0 hcl ⊢
            by_cases hov : inI64 (cu + st)
            · rw [wrap64_eq_of_inI64 hov] at hc0 hcl ⊢
              have := hm1 hstpos hneg hcu_lt
              omega
            · exfalso
              unfold inI64 i64Min i64Max at hov hsI hcI
              have hwneg : wrap64 (cu + st) < 0 := by
                unfold wrap64
                omega
              omega
          · intro hstneg hc0 hcl
            simp only at hstneg hc0 hcl ⊢
            have hov : inI64 (cu + st) := by
              unfold inI64 i64Min i64Max at hsI hcI ⊢
              omega
            rw [wrap64_eq_of_inI64 hov] at hc0 hcl ⊢
            have := hm2 hstneg hneg hcu_lt
            omega
          obtain ⟨res, hres, hok⟩ := hrec
          rcases hgo : slice_array_go arr sp fuel ⟨st, en, wrap64 (cu + st)⟩
            (ov || Range.advanceOverflows ⟨st, en, cu⟩) with ⟨ores, o⟩
          rw [hgo] at hres
          simp only at hres
          subst hres
          cases res with
          | error e =>
            simp only [slice_array_go, hnext, hidx, hgo]
            refine ⟨.error e, rfl, ?_⟩
            rcases hok with ⟨l, hl⟩ | h | h
            · cases hl
            · exact .inr (.inl h)
            · exact .inr (.inr h)
          | ok rest =>
            simp only [slice_array_go, hnext, hidx, hgo]
            exact ⟨.ok (w :: rest), rfl, .inl ⟨w :: rest, rfl⟩⟩
      · have hidx : index_array arr cu sp =
            .error (.error (.invalidIndex cu sp)) := by
          simp [index_array, asIndex, hneg, raiseError]
        simp only [slice_array_go, hnext, hidx]
        exact ⟨_, rfl, .inr (.inl ⟨cu, rfl⟩)⟩
    · have hnext : Range.next ⟨st, en, cu⟩ =
          (none, ⟨st, en, wrap64 (cu + st)⟩) := by
        simp only [Range.next]
        rw [if_neg hcond]
      simp only [slice_array_go, hnext]
      exact ⟨.ok [], rfl, .inl ⟨[], rfl⟩⟩

theorem make_range_ok_facts {arr : List Value} {start : Option Int}
    {step : Int} {stop : Option Int} {sp : PackageSpan} {r : Range}
    (h : make_range arr start step stop sp = .ok r) :
    r.step = step ∧ (arr.length : Int) ≤ i64Max ∧
      r.curr = (if 0 < step then start.getD 0
        else start.getD ((arr.length : Int) - 1)) := by
  unfold make_range at h
  by_cases h0 : step = 0
  · rw [if_pos h0] at h
    simp [raiseError] at h
  · rw [if_neg h0] at h
    by_cases hl : (arr.length : Int) ≤ i64Max
    · rw [if_pos hl] at h
      simp only [EvalM.ok_bind] at h
      injection h with h
      subst h
      refine ⟨rfl, hl, ?_⟩
      by_cases hp : step > 0
      · rw [if_pos hp]
        simp [Range.new, hp]
      · rw [if_neg hp]
        simp [Range.new, hp]
    · rw [if_neg hl] at h
      simp [raiseError] at h

/-- C10 (counterexample): slicing a 6-element array with the range
`5..i64::MAX..9` performs an advance `curr += step` that overflows the `i64`
(the instrumented overflow flag is set), refuting "the range iterator's
advance never overflows while producing the slice". -/
theorem claim_c10_counterexample :
    (slice_array (List.replicate 6 (Value.int 0)) (some 5) i64Max (some 9)
      ⟨0, ⟨0, 1⟩⟩).2 = true := by
  rfl

/-- C10 (amended): for every array and every Range index with nonzero `i64`
step and `i64` start, `slice_array` is total: it returns an Array value or
one of `InvalidIndex`, `IndexOutOfRange`, `ArrayTooLarge`.  (The advance is
wrapping `i64` addition and can overflow — see the counterexample — but a
wrapped position is rejected by the bounds checks, so totality and the error
set are unaffected.) -/
theorem claim_c10_slice_total_amended :
    ∀ (arr : List Value) (start : Option Int) (step : Int) (stop : Option Int)
      (sp : PackageSpan),
      step ≠ 0 → inI64 step → (∀ s ∈ start, inI64 s) →
      ∃ res, (slice_array arr start step stop sp).1 = some res ∧
        ((∃ l, res = .ok (.array l)) ∨
         (∃ i, res = .error (.error (.invalidIndex i sp))) ∨
         (∃ i, res = .error (.error (.indexOutOfRange i sp))) ∨
         res = .error (.error (.arrayTooLarge sp))) := by
  intro arr start step stop sp hs0 hsI hstartI
  rcases hmr : make_range arr start step stop sp with e | r
  · have he : e = .error (.arrayTooLarge sp) := by
      unfold make_range at hmr
      rw [if_neg hs0] at hmr
      by_cases hl : (arr.length : Int) ≤ i64Max
      · rw [if_pos hl] at hmr
        simp at hmr
      · rw [if_neg hl] at hmr
        simp [raiseError] at hmr
        rw [hmr]
    subst he
    unfold slice_array
    rw [hmr]
    exact ⟨_, rfl, .inr (.inr (.inr rfl))⟩
  · obtain ⟨hrs, hlen, hrc⟩ := make_range_ok_facts hmr
    have hcI : inI64 r.curr := by
      rw [hrc]
      by_cases hp : 0 < step
      · rw [if_pos hp]
        cases start with
        | none => simp; decide
        | some s => simpa using hstartI s rfl
      · rw [if_neg hp]
        cases start with
        | none =>
          simp only [Option.getD_none]
          unfold i64Max at hlen
          unfold inI64 i64Min i64Max
          have : (0 : Int) ≤ (arr.length : Int) := by positivity
          omega
        | some s => simpa using hstartI s rfl
    have hgo := slice_go_total arr sp (arr.length + 2) r false
      (by rw [hrs]; exact hs0) (by rw [hrs]; exact hsI) hcI hlen
      (by omega) (by intro _ hc0 hcl; omega) (by intro _ hc0 hcl; omega)
    obtain ⟨res, hres, hok⟩ := hgo
    rcases hgo2 : slice_array_go arr sp (arr.length + 2) r false with ⟨ores, o⟩
    rw [hgo2] at hres
    simp only at hres
    subst hres
    cases res with
    | error e =>
      simp only [slice_array, hmr, hgo2]
      refine ⟨.error e, rfl, ?_⟩
      rcases hok with ⟨l, hl⟩ | ⟨i, hi⟩ | ⟨i, hi⟩
      · cases hl
      · injection hi with hi
        exact .inr (.inl ⟨i, by rw [hi]⟩)
      · injection hi with hi
        exact .inr (.inr (.inl ⟨i, by rw [hi]⟩))
    | ok l =>
      simp only [slice_array, hmr, hgo2]
      exact ⟨.ok (.array l), rfl, .inl ⟨l, rfl⟩⟩

/-- C10 (witness): the totality theorem applied at a concrete slice. -/
theorem claim_c10_witness :
    ∃ res, (slice_array [Value.int 5] none 1 none ⟨0, ⟨0, 1⟩⟩).1 = some res ∧
      ((∃ l, res = .ok (.array l)) ∨
       (∃ i, res = .error (.error (.invalidIndex i ⟨0, ⟨0, 1⟩⟩))) ∨
       (∃ i, res = .error (.error (.indexOutOfRange i ⟨0, ⟨0, 1⟩⟩))) ∨
       res = .error (.error (.arrayTooLarge ⟨0, ⟨0, 1⟩⟩))) :=
  claim_c10_slice_total_amended [Value.int 5] none 1 none ⟨0, ⟨0, 1⟩⟩
    (by decide) (by decide) (by simp)

end Qsc

namespace Qsc

/-! ## Resolver (`qsc_frontend::resolve`)

Hash maps (`FxHashMap`) are embedded as association lists with unique keys;
`insert` overwrites the entry with an equal key.  Identifier interning
(`Rc<str>`) is dropped: names are `String`s.  `NodeId`, `ParamId` and `Prim`
are `Nat`s. -/

/-- `hir::ItemId`: an optional package id and a local item id. -/
structure ItemId where
  package : Option Nat
  item : Nat
deriving DecidableEq, Repr

/-- `hir::ItemStatus`. -/
inductive ItemStatus where
  | available
  | unimplemented
deriving DecidableEq, Repr

/-- `resolve::Res`: a name resolution (`Local` is `localVar`, a Lean
keyword clash). -/
inductive Res where
  | item (id : ItemId) (status : ItemStatus)
  | localVar (id : Nat)
  | param (id : Nat)
  | primTy (p : Nat)
  | unitTy
deriving DecidableEq, Repr

/-- `resolve::NameKind`. -/
inductive NameKind where
  | ty
  | term
deriving DecidableEq, Repr

/-- `resolve::ScopeKind` (`Namespace` is `ns`, a Lean keyword clash). -/
inductive ScopeKind where
  | ns (name : String)
  | callable
  | block
deriving DecidableEq, Repr

/-- `resolve::Open`: an open statement's target namespace and span
(`namespace` is `ns`, a Lean keyword clash). -/
structure Open where
  ns : String
  span : Span
deriving DecidableEq, Repr

/-- Association-list lookup, the embedding of `FxHashMap::get`. -/
def alookup {β : Type} : List (String × β) → String → Option β
  | [], _ => none
  | (k, v) :: rest, name => if k = name then some v else alookup rest name

/-- `resolve::Scope` (the resolver's; the evaluator's is `EScope`).  The
`valid_at` offset stored with each var is dropped: `resolve` ignores it. -/
structure Scope where
  kind : ScopeKind
  opens : List (String × List Open)
  tys : List (String × ItemId)
  terms : List (String × ItemId)
  vars : List (String × Nat)
  ty_vars : List (String × Nat)
deriving Repr

/-- `resolve::GlobalScope` (the `namespaces` and `intrinsics` sets are
dropped: `resolve` does not read them). -/
structure GlobalScope where
  tys : List (String × List (String × Res))
  terms : List (String × List (String × Res))
deriving Repr

/-- `GlobalScope::get`. -/
def GlobalScope.get (g : GlobalScope) (kind : NameKind) (ns name : String) :
    Option Res :=
  let namespaces := match kind with | .ty => g.tys | .term => g.terms
  (alookup namespaces ns).bind fun items => alookup items name

/-- `Scope::item`. -/
def Scope.item (s : Scope) (kind : NameKind) (name : String) : Option ItemId :=
  alookup (match kind with | .ty => s.tys | .term => s.terms) name

/-- `resolve::PRELUDE`. -/
def PRELUDE : List String :=
  ["Microsoft.Quantum.Canon", "Microsoft.Quantum.Core",
    "Microsoft.Quantum.Intrinsic"]

/-- `resolve::single`: the sole element of a sequence, if sole. -/
def single {α : Type} : List α → Option α
  | [x] => some x
  | _ => none

/-- The resolver errors `resolve` can emit (`resolve::Error`, restricted to
the variants reachable from `resolve`). -/
inductive RError where
  | ambiguous (name first_open second_open : String)
      (name_span first_open_span second_open_span : Span)
  | ambiguousPrelude (name candidate_a candidate_b : String) (span : Span)
  | notFound (name : String) (span : Span)
deriving DecidableEq, Repr

/-- `FxHashMap::insert` on a `Res`-keyed candidate map: overwrite the entry
with an equal key, else append. -/
def resInsert {α : Type} : List (Res × α) → Res → α → List (Res × α)
  | [], k, v => [(k, v)]
  | (k', v') :: rest, k, v =>
    if k' = k then (k, v) :: rest else (k', v') :: resInsert rest k v

/-- `resolve::resolve_implicit_opens`: candidates from a namespace list,
each paired with the namespace it came from. -/
def resolve_implicit_opens (kind : NameKind) (globals : GlobalScope)
    (namespaces : List String) (name : String) : List (Res × String) :=
  namespaces.foldl
    (fun cands ns =>
      match globals.get kind ns name with
      | some res => resInsert cands res ns
      | none => cands) []

/-- `resolve::resolve_explicit_opens`: candidates from a list of opens, each
paired with the open it came from. -/
def resolve_explicit_opens (kind : NameKind) (globals : GlobalScope)
    (opens : List Open) (name : String) : List (Res × Open) :=
  opens.foldl
    (fun cands o =>
      match globals.get kind o.ns name with
      | some res => resInsert cands res o
      | none => cands) []

/-- `resolve::resolve_scope_locals`: vars/ty-vars (gated by `vars`), then
scope items, then — for a namespace scope — that namespace's globals. -/
def resolve_scope_locals (kind : NameKind) (globals : GlobalScope)
    (scope : Scope) (vars : Bool) (name : String) : Option Res :=
  match
    (if vars then
      match kind with
      | .term => (alookup scope.vars name).map Res.localVar
      | .ty => (alookup scope.ty_vars name).map Res.param
    else none) with
  | some res => some res
  | none =>
    match (scope.item kind name).map (fun id => Res.item id .available) with
    | some res => some res
    | none =>
      match scope.kind with
      | .ns n => globals.get kind n name
      | _ => none

/-- The scope-walking loop of `resolve` (`resolve.rs:997-1017`), innermost
scope first.  Returns an early `Res` when a local declaration matched, else
the explicit-open candidates at the `break` (`[]` when the walk fell off the
end: the loop leaves `candidates` empty in that case). -/
def resolveScopes (kind : NameKind) (globals : GlobalScope)
    (nsStr name : String) : List Scope → Bool → Option Res × List (Res × Open)
  | [], _ => (none, [])
  | scope :: rest, vars =>
    match
      (if nsStr = "" then resolve_scope_locals kind globals scope vars name
      else none) with
    | some res => (some res, [])
    | none =>
      let cands :=
        match alookup scope.opens nsStr with
        | some opens => resolve_explicit_opens kind globals opens name
        | none => []
      if cands.isEmpty then
        resolveScopes kind globals nsStr name rest
          (if scope.kind = ScopeKind.callable then false else vars)
      else (none, cands)

/-- Keep a candidate unless it is an `Unimplemented` item
(`resolve.rs:1054-1065`). -/
def keepImplemented {α : Type} (c : Res × α) : Bool :=
  match c.1 with
  | .item _ .unimplemented => false
  | _ => true

/-- Span-ordering on opens, the `sort_unstable_by_key(|open| open.span)`
key. -/
def Open.le (a b : Open) : Prop := Span.le a.span b.span

instance : DecidableRel Open.le := by
  intro a b
  unfold Open.le
  infer_instance

instance : IsTotal Open Open.le where
  total a b := IsTotal.total (r := Span.le) a.span b.span

instance : IsTrans Open Open.le where
  trans a b c h1 h2 := IsTrans.trans (r := Span.le) _ _ _ h1 h2

/-- The candidate-disambiguation tail of `resolve` (`resolve.rs:1054-1083`):
drop `Unimplemented` items when more than one candidate remains; two or more
left → `Ambiguous` naming the two opens with the lowest spans; else the sole
candidate or `NotFound`. -/
def resolveFromCandidates (name : String) (sp : Span)
    (candidates : List (Res × Open)) : Except RError Res :=
  let candidates :=
    if 1 < candidates.length then candidates.filter keepImplemented
    else candidates
  if 1 < candidates.length then
    match (candidates.map Prod.snd).insertionSort Open.le with
    | o1 :: o2 :: _ =>
      .error (.ambiguous name o1.ns o2.ns sp o1.span o2.span)
    | _ => .error (.notFound name sp)
  else
    match single (candidates.map Prod.fst) with
    | some res => .ok res
    | none => .error (.notFound name sp)

/-- The unopened-globals last resort of `resolve` (`resolve.rs:1046-1051`,
with the `NotFound` fallthrough). -/
def resolveGlobal (kind : NameKind) (globals : GlobalScope) (nsStr : String)
    (name : String) (sp : Span) : Except RError Res :=
  match globals.get kind nsStr name with
  | some res => .ok res
  | none => .error (.notFound name sp)

/-- `resolve::resolve` (`resolve.rs:986-1084`): walk the scopes innermost to
outermost (locals shadow everything; explicit opens break the walk; a
`Callable` scope hides parent vars), then the prelude (ambiguity between
prelude namespaces is `AmbiguousPrelude`, candidates sorted by namespace
string), then unopened globals, then candidate disambiguation. -/
def resolve (kind : NameKind) (globals : GlobalScope) (scopes : List Scope)
    (name : String) (sp : Span) (nsq : Option String) : Except RError Res :=
  let nsStr := nsq.getD ""
  match resolveScopes kind globals nsStr name scopes true with
  | (some res, _) => .ok res
  | (none, candidates) =>
    if candidates.isEmpty then
      match
        (if nsStr = "" then
          some (resolve_implicit_opens kind globals PRELUDE name)
        else none) with
      | some pcands =>
        if 1 < pcands.length then
          match
            (pcands.insertionSort (fun a b => a.2 ≤ b.2)).map Prod.snd with
          | a :: b :: _ => .error (.ambiguousPrelude name a b sp)
          | _ => .error (.notFound name sp)
        else
          match single pcands with
          | some (res, _) => .ok res
          | none => resolveGlobal kind globals nsStr name sp
      | none => resolveGlobal kind globals nsStr name sp
    else resolveFromCandidates name sp candidates

end Qsc

namespace Qsc

/-- A scope with its vars and ty-vars erased. -/
def Scope.stripVars (s : Scope) : Scope := { s with vars := [], ty_vars := [] }

theorem stripVars_scope_locals (kind : NameKind) (g : GlobalScope) (s : Scope)
    (name : String) :
    resolve_scope_locals kind g (Scope.stripVars s) false name =
      resolve_scope_locals kind g s false name := rfl

theorem stripVars_opens (s : Scope) : (Scope.stripVars s).opens = s.opens := rfl

theorem stripVars_kind (s : Scope) : (Scope.stripVars s).kind = s.kind := rfl

theorem resolveScopes_stripVars (kind : NameKind) (g : GlobalScope)
    (nsStr name : String) (scopes : List Scope) :
    resolveScopes kind g nsStr name (scopes.map Scope.stripVars) false =
      resolveScopes kind g nsStr name scopes false := by
  induction scopes with
  | nil => rfl
  | cons s rest ih =>
    simp only [List.map_cons, resolveScopes, stripVars_scope_locals,
      stripVars_opens, stripVars_kind, ite_self, ih]

theorem resolveScopes_callable_step (kind : NameKind) (g : GlobalScope)
    (c : Scope) (rest : List Scope) (nsStr name : String) (vars : Bool)
    (hck : c.kind = ScopeKind.callable)
    (hloc : nsStr = "" → resolve_scope_locals kind g c vars name = none)
    (hopens : ∀ os, alookup c.opens nsStr = some os →
      resolve_explicit_opens kind g os name = []) :
    resolveScopes kind g nsStr name (c :: rest) vars =
      resolveScopes kind g nsStr name rest false := by
  have h1 : (if nsStr = "" then resolve_scope_locals kind g c vars name
      else none) = none := by
    by_cases h : nsStr = ""
    · rw [if_pos h]
      exact hloc h
    · rw [if_neg h]
  have h2 : (match alookup c.opens nsStr with
      | some opens => resolve_explicit_opens kind g opens name
      | none => []) = [] := by
    rcases ho : alookup c.opens nsStr with _ | os
    · rfl
    · exact hopens os ho
  simp only [resolveScopes, h1, h2, hck, List.isEmpty_nil, if_true, reduceIte]

theorem resolveScopes_opens_break (kind : NameKind) (g : GlobalScope)
    (s : Scope) (rest : List Scope) (nsStr name : String) (os : List Open)
    (hloc : nsStr = "" → resolve_scope_locals kind g s true name = none)
    (ho : alookup s.opens nsStr = some os)
    (hne : resolve_explicit_opens kind g os name ≠ []) :
    resolveScopes kind g nsStr name (s :: rest) true =
      (none, resolve_explicit_opens kind g os name) := by
  have h1 : (if nsStr = "" then resolve_scope_locals kind g s true name
      else none) = none := by
    by_cases h : nsStr = ""
    · rw [if_pos h]
      exact hloc h
    · rw [if_neg h]
  have h3 : (resolve_explicit_opens kind g os name).isEmpty = false := by
    rcases h : resolve_explicit_opens kind g os name with _ | ⟨a, l⟩
    · exact absurd h hne
    · rfl
  simp only [resolveScopes, h1, ho, h3, Bool.false_eq_true, if_false]

/-- C5: unqualified name resolution order.  (i) A matching local declaration
in the innermost scope shadows everything.  (ii) Crossing a `Callable`-kind
scope (one with no matching local and no explicit-open candidate) turns the
`vars` flag off for the remaining walk, and (iii) with `vars` off the
vars/ty-vars of all remaining scopes are invisible: erasing them does not
change the walk.  (iv) A non-empty explicit-open candidate set stops the
climb — the outer scopes are never consulted — and hands the candidates to
the disambiguation tail, which never reads the prelude or unopened globals.
(v) With no open candidates, a sole prelude hit resolves the name.  (vi) With
no open candidates and no prelude hit, an unopened global is the last
resort. -/
theorem claim_c5_resolution_order :
    (∀ (kind : NameKind) (g : GlobalScope) (s : Scope) (rest : List Scope)
        (name : String) (sp : Span) (r : Res),
        resolve_scope_locals kind g s true name = some r →
        resolve kind g (s :: rest) name sp none = .ok r) ∧
    (∀ (kind : NameKind) (g : GlobalScope) (c : Scope) (rest : List Scope)
        (nsStr name : String) (vars : Bool),
        c.kind = ScopeKind.callable →
        (nsStr = "" → resolve_scope_locals kind g c vars name = none) →
        (∀ os, alookup c.opens nsStr = some os →
          resolve_explicit_opens kind g os name = []) →
        resolveScopes kind g nsStr name (c :: rest) vars =
          resolveScopes kind g nsStr name rest false) ∧
    (∀ (kind : NameKind) (g : GlobalScope) (nsStr name : String)
        (scopes : List Scope),
        resolveScopes kind g nsStr name (scopes.map Scope.stripVars) false =
          resolveScopes kind g nsStr name scopes false) ∧
    (∀ (kind : NameKind) (g : GlobalScope) (s : Scope)
        (rest rest2 : List Scope) (name : String) (sp : Span)
        (nsq : Option String) (os : List Open),
        (nsq.getD "" = "" → resolve_scope_locals kind g s true name = none) →
        alookup s.opens (nsq.getD "") = some os →
        resolve_explicit_opens kind g os name ≠ [] →
        resolve kind g (s :: rest) name sp nsq =
          resolveFromCandidates name sp
            (resolve_explicit_opens kind g os name) ∧
        resolve kind g (s :: rest) name sp nsq =
          resolve kind g (s :: rest2) name sp nsq) ∧
    (∀ (kind : NameKind) (g : GlobalScope) (scopes : List Scope)
        (name : String) (sp : Span) (r : Res) (n : String),
        resolveScopes kind g "" name scopes true = (none, []) →
        resolve_implicit_opens kind g PRELUDE name = [(r, n)] →
        resolve kind g scopes name sp none = .ok r) ∧
    (∀ (kind : NameKind) (g : GlobalScope) (scopes : List Scope)
        (name : String) (sp : Span) (nsq : Option String),
        resolveScopes kind g (nsq.getD "") name scopes true = (none, []) →
        (nsq.getD "" = "" → resolve_implicit_opens kind g PRELUDE name = []) →
        resolve kind g scopes name sp nsq =
          resolveGlobal kind g (nsq.getD "") name sp) := by
  refine ⟨?_, ?_, ?_, ?_, ?_, ?_⟩
  · intro kind g s rest name sp r hloc
    simp [resolve, resolveScopes, hloc]
  · intro kind g c rest nsStr name vars hck hloc hopens
    exact resolveScopes_callable_step kind g c rest nsStr name vars hck hloc
      hopens
  · intro kind g nsStr name scopes
    exact resolveScopes_stripVars kind g nsStr name scopes
  · intro kind g s rest rest2 name sp nsq os hloc ho hne
    constructor
    · simp only [resolve, resolveScopes_opens_break kind g s rest (nsq.getD "")
        name os hloc ho hne]
      have h3 : (resolve_explicit_opens kind g os name).isEmpty = false := by
        rcases h : resolve_explicit_opens kind g os name with _ | ⟨a, l⟩
        · exact absurd h hne
        · rfl
      simp [h3]
    · simp only [resolve, resolveScopes_opens_break kind g s rest (nsq.getD "")
        name os hloc ho hne,
        resolveScopes_opens_break kind g s rest2 (nsq.getD "") name os hloc ho
          hne]
  · intro kind g scopes name sp r n hloop hprel
    simp [resolve, hloop, hprel, single]
  · intro kind g scopes name sp nsq hloop hprel
    by_cases h : nsq.getD "" = ""
    · rw [h] at hloop
      simp [resolve, h, hloop, hprel h, single]
    · simp [resolve, h, hloop]

end Qsc

namespace Qsc

/-- A concrete global scope for exercising the resolver. -/
def g5 : GlobalScope :=
  { tys := [],
    terms := [("A", [("f", .item ⟨none, 1⟩ .available)]),
      ("Microsoft.Quantum.Core", [("g", .item ⟨none, 2⟩ .available)])] }

/-- A concrete block scope binding the local variable `x`. -/
def s5local : Scope :=
  { kind := .block, opens := [], tys := [], terms := [], vars := [("x", 7)],
    ty_vars := [] }

/-- A concrete empty callable scope. -/
def s5callable : Scope :=
  { kind := .callable, opens := [], tys := [], terms := [], vars := [],
    ty_vars := [] }

/-- A concrete block scope opening namespace `A`. -/
def s5open : Scope :=
  { kind := .block, opens := [("", [⟨"A", ⟨5, 6⟩⟩])], tys := [], terms := [],
    vars := [], ty_vars := [] }

/-- C5 (witness): the resolution-order theorem applied at concrete scopes. -/
theorem claim_c5_witness :
    resolve .term g5 [s5local] "x" ⟨0, 1⟩ none = .ok (.localVar 7) ∧
    resolveScopes .term g5 "" "y" [s5callable] true =
      resolveScopes .term g5 "" "y" [] false ∧
    resolveScopes .term g5 "" "y" ([s5local].map Scope.stripVars) false =
      resolveScopes .term g5 "" "y" [s5local] false ∧
    resolve .term g5 [s5open, s5local] "f" ⟨0, 1⟩ none =
      resolveFromCandidates "f" ⟨0, 1⟩
        (resolve_explicit_opens .term g5 [⟨"A", ⟨5, 6⟩⟩] "f") ∧
    resolve .term g5 [] "g" ⟨0, 1⟩ none = .ok (.item ⟨none, 2⟩ .available) ∧
    resolve .term g5 [] "zzz" ⟨0, 1⟩ none =
      resolveGlobal .term g5 "" "zzz" ⟨0, 1⟩ := by
  obtain ⟨h1, h2, h3, h4, h5, h6⟩ := claim_c5_resolution_order
  refine ⟨h1 .term g5 s5local [] "x" ⟨0, 1⟩ (.localVar 7) rfl,
    h2 .term g5 s5callable [] "" "y" true rfl (fun _ => rfl)
      (fun os hos => nomatch hos),
    h3 .term g5 "" "y" [s5local],
    (h4 .term g5 s5open [s5local] [] "f" ⟨0, 1⟩ none [⟨"A", ⟨5, 6⟩⟩]
      (fun _ => rfl) rfl (by decide)).1,
    h5 .term g5 [] "g" ⟨0, 1⟩ (.item ⟨none, 2⟩ .available)
      "Microsoft.Quantum.Core" rfl rfl,
    h6 .term g5 [] "zzz" ⟨0, 1⟩ none rfl (fun _ => rfl)⟩

/-- C6: whenever the scope walk ends with open candidates of which, after
dropping `Unimplemented` items, at least two remain, `resolve` fails with
`Ambiguous` reporting the two opens with the lowest spans — the
lexicographically smallest open span first — as witnessed by a sorted
permutation of the surviving opens beginning with the two reported ones. -/
theorem claim_c6_ambiguous_two_lowest_opens (kind : NameKind)
    (g : GlobalScope) (scopes : List Scope) (name : String) (sp : Span)
    (nsq : Option String) (cands : List (Res × Open))
    (hloop : resolveScopes kind g (nsq.getD "") name scopes true =
      (none, cands))
    (hlen : 2 ≤ (if 1 < cands.length then cands.filter keepImplemented
      else cands).length) :
    ∃ o1 o2 rest,
      resolve kind g scopes name sp nsq =
        .error (.ambiguous name o1.ns o2.ns sp o1.span o2.span) ∧
      List.Perm
        ((if 1 < cands.length then cands.filter keepImplemented
          else cands).map Prod.snd) (o1 :: o2 :: rest) ∧
      List.Sorted Open.le (o1 :: o2 :: rest) ∧
      Span.le o1.span o2.span := by
  set filtered :=
    (if 1 < cands.length then cands.filter keepImplemented else cands)
    with hf
  have hne : cands ≠ [] := by
    intro h
    subst h
    simp [hf] at hlen
  have hie : cands.isEmpty = false := by
    rcases cands with _ | ⟨a, l⟩
    · exact absurd rfl hne
    · rfl
  have hgt : 1 < filtered.length := by omega
  have hresolve : resolve kind g scopes name sp nsq =
      resolveFromCandidates name sp cands := by
    simp only [resolve, hloop, hie, Bool.false_eq_true, if_false]
  have hperm := List.perm_insertionSort Open.le (filtered.map Prod.snd)
  have hsorted := List.sorted_insertionSort Open.le (filtered.map Prod.snd)
  have hlens : ((filtered.map Prod.snd).insertionSort Open.le).length =
      filtered.length := by
    rw [hperm.length_eq, List.length_map]
  rcases hs : (filtered.map Prod.snd).insertionSort Open.le
    with _ | ⟨o1, s1⟩
  · rw [hs] at hlens
    simp at hlens
    omega
  rcases s1 with _ | ⟨o2, rest⟩
  · rw [hs] at hlens
    simp at hlens
    omega
  rw [hs] at hperm hsorted
  refine ⟨o1, o2, rest, ?_, hperm.symm, hsorted, ?_⟩
  · rw [hresolve]
    simp only [resolveFromCandidates]
    rw [← hf, if_pos hgt, hs]
  · exact (List.sorted_cons.mp hsorted).1 o2 (List.mem_cons_self o2 rest)

end Qsc

namespace Qsc

/-- A global scope where namespaces `B` and `C` both export a term `f`. -/
def g6 : GlobalScope :=
  { tys := [],
    terms := [("B", [("f", .item ⟨none, 10⟩ .available)]),
      ("C", [("f", .item ⟨none, 11⟩ .available)])] }

/-- A block scope opening both `B` (span `7..8`) and `C` (span `3..4`). -/
def s6 : Scope :=
  { kind := .block, opens := [("", [⟨"B", ⟨7, 8⟩⟩, ⟨"C", ⟨3, 4⟩⟩])],
    tys := [], terms := [], vars := [], ty_vars := [] }

/-- The open candidates the walk of `[s6]` produces for `f`. -/
def cands6 : List (Res × Open) :=
  [(.item ⟨none, 10⟩ .available, ⟨"B", ⟨7, 8⟩⟩),
    (.item ⟨none, 11⟩ .available, ⟨"C", ⟨3, 4⟩⟩)]

/-- C6 (witness): the ambiguity theorem applied at two concrete opens. -/
theorem claim_c6_witness :
    ∃ o1 o2 rest,
      resolve .term g6 [s6] "f" ⟨0, 1⟩ none =
        .error (.ambiguous "f" o1.ns o2.ns ⟨0, 1⟩ o1.span o2.span) ∧
      List.Perm
        ((if 1 < cands6.length then cands6.filter keepImplemented
          else cands6).map Prod.snd) (o1 :: o2 :: rest) ∧
      List.Sorted Open.le (o1 :: o2 :: rest) ∧
      Span.le o1.span o2.span :=
  claim_c6_ambiguous_two_lowest_opens .term g6 [s6] "f" ⟨0, 1⟩ none cands6
    (by decide) (by decide)

end Qsc

namespace Qsc

/-! ## The continuation machine of `State::eval` (`lib.rs:543-607`)

The machine is embedded over the expression fragment `Lit Int`,
`BinOp(Div)`, `Call`, and a `Var` resolving to a global callable value,
with `Expr` statements and `Body`-spec callables whose input pattern is a
discard (`bind_args_for_spec` binds nothing).  This fragment exercises the
whole error plumbing of `eval`: continuation and action stacks, value
stack, call-stack frames and `current_span` maintenance.  Stacks are lists
with the top at the head (a `Vec` push is a cons).  Machine panics
(`expect`/`panic!` in the source) are `none`; `map_fir_package_to_hir` is
the identity on package ids. -/

/-- `qsc_eval::CallStack`'s `Frame` (`lib.rs`). -/
structure Frame where
  span : Span
  id : StoreItemId
  caller : Nat
  functor : FunctorApp
deriving DecidableEq, Repr

/-- The span rotation of `State::get_stack_frames` (`lib.rs:529-537`):
walking the frames from innermost (list end) to outermost, swap each
frame's span with the running span, starting from the current span.  Takes
the frames outermost-first (the `Vec` order) and returns them with the
rotated spans, plus the span left over (the outermost frame's old span,
dropped by the caller). -/
def rotateSpans : List Frame → Span → List Frame × Span
  | [], sp => ([], sp)
  | f :: rest, sp =>
    let (rest', sp') := rotateSpans rest sp
    ({ f with span := sp' } :: rest', f.span)

/-- `State::get_stack_frames`: the call stack (innermost frame first in our
list) as a `Vec` of frames, outermost first, with spans rotated so the
innermost frame carries the current span. -/
def get_stack_frames (callStack : List Frame) (cur : Span) : List Frame :=
  (rotateSpans callStack.reverse cur).1

/-- The machine's expression forms (the embedded fragment of
`fir::ExprKind`). -/
inductive MExprKind where
  | lit (n : Int)
  | div (lhs rhs : Nat)
  | call (callee args : Nat)
  | globalVal (id : StoreItemId)
deriving DecidableEq, Repr

/-- An expression with its span (`fir::Expr`, fragment). -/
structure MExpr where
  span : Span
  kind : MExprKind
deriving DecidableEq, Repr

/-- An `Expr`-kind statement with its span (`fir::Stmt`, fragment). -/
structure MStmt where
  span : Span
  expr : Nat
deriving DecidableEq, Repr

/-- A `Body`-spec callable with a discard input: its declaration span and
its block's statement ids (`fir::CallableDecl`, fragment). -/
structure MCallable where
  span : Span
  body : List Nat
deriving DecidableEq, Repr

/-- One package's expression and statement stores. -/
structure MPackage where
  exprs : List MExpr
  stmts : List MStmt
deriving DecidableEq, Repr

/-- The package store (`PackageStoreLookup`, fragment). -/
structure MGlobals where
  packages : List MPackage
  callables : List (StoreItemId × MCallable)
deriving DecidableEq, Repr

/-- `get_expr((package, expr).into())`. -/
def MGlobals.getExpr (g : MGlobals) (package e : Nat) : Option MExpr :=
  (g.packages[package]?).bind fun p => p.exprs[e]?

/-- `get_stmt((package, stmt).into())`. -/
def MGlobals.getStmt (g : MGlobals) (package s : Nat) : Option MStmt :=
  (g.packages[package]?).bind fun p => p.stmts[s]?

/-- `get_global(id)`. -/
def MGlobals.getGlobal (g : MGlobals) (id : StoreItemId) : Option MCallable :=
  match g.callables.find? fun c => c.1 = id with
  | some c => some c.2
  | none => none

/-- `qsc_eval::Cont` (fragment: no `Stmt`-local breakpoints modelled). -/
inductive MCont where
  | action
  | expr (e : Nat)
  | frame (len : Nat)
  | scope
  | stmt (s : Nat)
deriving DecidableEq, Repr

/-- `qsc_eval::Action` (fragment). -/
inductive MAction where
  | binOpDiv (rhsSpan : Span)
  | call (calleeSpan argSpan : Span)
  | consume
deriving DecidableEq, Repr

/-- `qsc_eval::State` (fragment; the rng is dropped). -/
structure MState where
  contStack : List MCont
  actionStack : List MAction
  vals : List Value
  package : Nat
  callStack : List Frame
  currentSpan : Span
deriving Repr

/-- `State::to_global_span`. -/
def to_global_span (package : Nat) (sp : Span) : PackageSpan := ⟨package, sp⟩

/-- `Env::push_scope` (`lib.rs`): append a fresh scope recording the current
call-stack depth. -/
def envPushScope (env : Env) (frameId : Nat) : Env :=
  env ++ [{ bindings := [], frame_id := frameId }]

/-- `Env::leave_scope` (`lib.rs`): drop the innermost scope. -/
def envLeaveScope (env : Env) : Env := env.dropLast

/-- `State::push_block` (`lib.rs:502-515`) as a pure function on the three
stacks: push a `Scope` continuation, then each statement (in reverse) with a
`Consume` action; an empty block pushes `unit`, otherwise the topmost
`Consume` is popped back off so the last statement's value survives. -/
def pushBlock (stmts : List Nat) (cs : List MCont) (acts : List MAction)
    (vals : List Value) : List MCont × List MAction × List Value :=
  let cs := MCont.scope :: cs
  let p := stmts.foldr
    (fun s (p : List MCont × List MAction) =>
      (MCont.action :: MCont.stmt s :: p.1, MAction.consume :: p.2))
    (cs, acts)
  if stmts.isEmpty then (p.1, p.2, Value.tuple [] :: vals)
  else
    match p.1 with
    | MCont.action :: cs' => (cs', p.2.tail, vals)
    | c :: cs' => (cs', p.2, vals)
    | [] => ([], p.2, vals)

/-- One observable outcome of a machine step. -/
inductive MStep where
  | result (v : Value)
  | errored (e : EvalError) (st : MState)
  | next (env : Env) (st : MState)

/-- `State::cont_expr` (`lib.rs:613-668`, fragment): record the expression's
span as current, then dispatch. -/
def contExprStep (g : MGlobals) (env : Env) (st : MState)
    (rest : List MCont) (e : Nat) : Option MStep :=
  match g.getExpr st.package e with
  | none => none
  | some expr =>
    let st := { st with contStack := rest, currentSpan := expr.span }
    match expr.kind with
    | .lit n => some (.next env { st with vals := Value.int n :: st.vals })
    | .globalVal id =>
      some (.next env
        { st with vals := Value.global id ⟨false, 0⟩ :: st.vals })
    | .div lhs rhs =>
      match g.getExpr st.package rhs with
      | none => none
      | some rhsExpr =>
        some (.next env
          { st with
              contStack :=
                MCont.expr lhs :: MCont.expr rhs :: MCont.action ::
                  st.contStack,
              actionStack := MAction.binOpDiv rhsExpr.span :: st.actionStack })
    | .call callee args =>
      match g.getExpr st.package callee, g.getExpr st.package args with
      | some calleeExpr, some argsExpr =>
        some (.next env
          { st with
              contStack :=
                MCont.expr callee :: MCont.expr args :: MCont.action ::
                  st.contStack,
              actionStack :=
                MAction.call calleeExpr.span argsExpr.span :: st.actionStack })
      | _, _ => none

/-- `State::eval_call` (`lib.rs:1073-1147`, fragment): pop argument and
callee, look the callable up, push a frame (recording the current span and
the caller package) and an argument scope, then push the body block; a
missing global is `UnboundName`, a non-callable value is a panic. -/
def evalCallStep (g : MGlobals) (env : Env) (st : MState)
    (rest : List MCont) (acts : List MAction) (csp : Span) : Option MStep :=
  match st.vals with
  | _arg :: calleeVal :: vrest =>
    match
      (match calleeVal with
      | .closure _ id functor => some (id, functor)
      | .global id functor => some (id, functor)
      | _ => none) with
    | none => none
    | some (id, functor) =>
      match g.getGlobal id with
      | none =>
        some (.errored (.unboundName (to_global_span st.package csp))
          { st with contStack := rest, actionStack := acts, vals := vrest })
      | some c =>
        match spec_from_functor_app functor with
        | Spec.body =>
          let newFrame : Frame := ⟨st.currentSpan, id, st.package, functor⟩
          let callStack' := newFrame :: st.callStack
          let cs1 := MCont.scope :: MCont.frame vrest.length :: rest
          let env1 := envPushScope env callStack'.length
          let b := pushBlock c.body cs1 acts vrest
          some (.next env1
            { st with
                contStack := b.1, actionStack := b.2.1, vals := b.2.2,
                package := id.package, callStack := callStack' })
        | _ => none
  | _ => none

/-- `State::cont_action` (`lib.rs:897-941`, fragment) for the action on top
of the action stack. -/
def contActionStep (g : MGlobals) (env : Env) (st : MState)
    (rest : List MCont) (acts : List MAction) (a : MAction) : Option MStep :=
  match a with
  | .binOpDiv rsp =>
    match st.vals with
    | rhs :: lhs :: vrest =>
      match eval_binop_div lhs rhs (to_global_span st.package rsp) with
      | .ok v =>
        some (.next env
          { st with contStack := rest, actionStack := acts, vals := v :: vrest })
      | .error (.error e) =>
        some (.errored e
          { st with contStack := rest, actionStack := acts, vals := vrest })
      | .error (.panicked _) => none
    | _ => none
  | .call csp _ =>
    evalCallStep g env { st with contStack := rest, actionStack := acts }
      rest acts csp
  | .consume =>
    match st.vals with
    | _ :: vrest =>
      some (.next env
        { st with contStack := rest, actionStack := acts, vals := vrest })
    | [] => none

/-- One iteration of the `while let Some(cont) = self.pop_cont()` loop of
`State::eval` (`lib.rs:554-602`), run with no breakpoints and the
`Continue` step action; an empty continuation stack yields
`Return(get_result())`. -/
def evalStep (g : MGlobals) (env : Env) (st : MState) : Option MStep :=
  match st.contStack with
  | [] =>
    match st.vals with
    | v :: _ => some (.result v)
    | [] => none
  | cont :: rest =>
    match cont with
    | .expr e => contExprStep g env st rest e
    | .action =>
      match st.actionStack with
      | [] => none
      | a :: acts => contActionStep g env st rest acts a
    | .frame len =>
      match st.callStack with
      | [] => none
      | frame :: cstack =>
        match st.vals with
        | frameVal :: vrest =>
          some (.next env
            { st with contStack := rest, callStack := cstack, package := frame.caller, vals := frameVal :: vrest.drop (vrest.length - len) })
        | [] => none
    | .scope => some (.next (envLeaveScope env) { st with contStack := rest })
    | .stmt s =>
      match g.getStmt st.package s with
      | none => none
      | some stmt =>
        some (.next env
          { st with contStack := MCont.expr stmt.expr :: rest, currentSpan := stmt.span })

/-- `State::eval` as a fuelled loop: `none` is fuel exhaustion or a machine
panic; an error is paired with `get_stack_frames` of the state at the error
point, exactly as `eval`'s `map_err` does. -/
def evalLoop : Nat → MGlobals → Env → MState →
    Option (Except (EvalError × List Frame) Value)
  | 0, _, _, _ => none
  | fuel + 1, g, env, st =>
    match evalStep g env st with
    | none => none
    | some (.result v) => some (.ok v)
    | some (.errored e st') =>
      some (.error (e, get_stack_frames st'.callStack st'.currentSpan))
    | some (.next env' st') => evalLoop fuel g env' st'

end Qsc

namespace Qsc

theorem rotateSpans_snoc (l : List Frame) (f : Frame) (cur : Span) :
    rotateSpans (l ++ [f]) cur =
      ((rotateSpans l f.span).1 ++ [{ f with span := cur }],
        (rotateSpans l f.span).2) := by
  induction l with
  | nil => rfl
  | cons a l ih =>
    rcases hr : rotateSpans l f.span with ⟨r1, s1⟩
    rw [hr] at ih
    simp only at ih
    simp only [List.cons_append, rotateSpans, List.append_eq, ih, hr,
      List.nil_append]

/-- The program `1 / 0` at top level: a single division expression, no
callables, empty call stack. -/
def g1 : MGlobals :=
  { packages := [{ exprs := [⟨⟨0, 3⟩, .div 1 2⟩, ⟨⟨0, 1⟩, .lit 1⟩,
      ⟨⟨2, 3⟩, .lit 0⟩], stmts := [] }],
    callables := [] }

/-- The initial machine state evaluating expression 0 of package 0. -/
def st1 : MState :=
  { contStack := [.expr 0], actionStack := [], vals := [], package := 0,
    callStack := [], currentSpan := ⟨0, 0⟩ }

/-- C1 (counterexample): the full run of the top-level program `1 / 0`
terminates with `DivZero` paired with the EMPTY frame list — the call stack
is empty at the error, so `get_stack_frames` returns no frames, refuting
"a single Error paired with a non-empty list of call-stack frames". -/
theorem claim_c1_counterexample :
    evalLoop 10 g1 [] st1 =
      some (.error (.divZero ⟨0, ⟨2, 3⟩⟩, [])) := rfl

/-- C1 (amended): a terminating full run of the machine yields either a
single Value or a single Error paired with `get_stack_frames` of the call
stack and current span at the error point; that snapshot is empty exactly
when the call stack is empty, and for a non-empty call stack the innermost
frame (list end) carries the current span while each outer frame receives
the span of the frame one step closer to the error. -/
theorem claim_c1_eval_outcome :
    (∀ (fuel : Nat) (g : MGlobals) (env : Env) (st : MState)
        (res : Except (EvalError × List Frame) Value),
        evalLoop fuel g env st = some res →
        (∃ v, res = .ok v) ∨
        (∃ e stack cur, res = .error (e, get_stack_frames stack cur))) ∧
    (∀ cur : Span, get_stack_frames [] cur = []) ∧
    (∀ (f : Frame) (fs : List Frame) (cur : Span),
      get_stack_frames (f :: fs) cur =
        get_stack_frames fs f.span ++ [{ f with span := cur }]) := by
  refine ⟨?_, fun cur => rfl, ?_⟩
  · intro fuel
    induction fuel with
    | zero =>
      intro g env st res h
      cases h
    | succ fuel ih =>
      intro g env st res h
      rw [evalLoop] at h
      rcases hstep : evalStep g env st with _ | ms
      · rw [hstep] at h
        cases h
      · rw [hstep] at h
        cases ms with
        | result v =>
          simp only at h
          injection h with h
          exact .inl ⟨v, h.symm⟩
        | errored e st' =>
          simp only at h
          injection h with h
          exact .inr ⟨e, st'.callStack, st'.currentSpan, h.symm⟩
        | next env' st' =>
          simp only at h
          exact ih g env' st' res h
  · intro f fs cur
    unfold get_stack_frames
    rw [List.reverse_cons, rotateSpans_snoc]

/-- The program `F(7)` where the global callable `F`'s body is `1 / 0`. -/
def g2 : MGlobals :=
  { packages := [{ exprs := [⟨⟨0, 10⟩, .call 1 2⟩,
      ⟨⟨0, 1⟩, .globalVal ⟨0, 0⟩⟩, ⟨⟨2, 3⟩, .lit 7⟩, ⟨⟨20, 27⟩, .div 4 5⟩,
      ⟨⟨20, 21⟩, .lit 1⟩, ⟨⟨22, 23⟩, .lit 0⟩], stmts := [⟨⟨20, 30⟩, 3⟩] }],
    callables := [(⟨0, 0⟩, ⟨⟨15, 40⟩, [0]⟩)] }

/-- The initial machine state for `g2`. -/
def st2 : MState :=
  { contStack := [.expr 0], actionStack := [], vals := [], package := 0,
    callStack := [], currentSpan := ⟨0, 0⟩ }

/-- The outcome of the `g2` run: `DivZero`, one frame, carrying the span of
the failing division's rhs (the current span at the error). -/
def res2 : Except (EvalError × List Frame) Value :=
  .error (.divZero ⟨0, ⟨22, 23⟩⟩, [⟨⟨22, 23⟩, ⟨0, 0⟩, 0, ⟨false, 0⟩⟩])

/-- C1 (witness): the outcome theorem applied to the terminating run of
`F(7)` where `F`'s body divides by zero. -/
theorem claim_c1_witness :
    (∃ v, res2 = .ok v) ∨
    (∃ e stack cur, res2 = .error (e, get_stack_frames stack cur)) :=
  claim_c1_eval_outcome.1 20 g2 [] st2 res2 rfl

end Qsc
